import Mathlib

/-!
Wildcard matching of `glob/glob.go`

A shallow embedding of the package `glob` of the repository: the two-pass
compiler (`compile`, `getSubExprs`) and the matcher (`match`, `equal`,
`hasPrefix`, `hasMidfix`, `hasSuffix`, `same`).

Conventions of the embedding.

* A Go `byte` is a natural number below 256; a `[]byte` or a `string`
  is a `List Nat`.  The three special pattern bytes are `'*' = 42`,
  `'?' = 63` and `'\\' = 92`.
* A Go slice that is `nil` is the empty list.  The source tests
  `subPatt.patt != nil` and `subExpr.expr != nil`; both slices are only
  ever reset to `nil` or grown by `append` of one byte, so "not nil" and
  "not empty" coincide there.
* The range loops of the compiler are left folds over the input with the
  loop variables as an explicit state.
* A run-time panic (the only unguarded index is `sub.expr[0]` in
  `hasMidfix`) is the result `none`; the slice expressions of the matcher
  stand behind a length test in the source and are `List.take` and
  `List.drop` here.  The matcher is given a second time with every index
  and slice expression checked; `matchLoopChecked_eq` shows that the two
  agree.
-/

namespace glob

/-! ## Data model -/

/-- The constants `matchStart .. matchOne` of the source (`iota` block). -/
inductive Mode where
  | matchStart
  | matchAny
  | matchEnd
  | matchFull
  | matchOne
  deriving DecidableEq

/-- The struct `subExpression`: the bytes of a literal run and the mode. -/
structure subExpression where
  expr : List Nat
  mode : Mode
  deriving DecidableEq

/-- The struct `subPattern`: the raw text between two `*`, its
sub-expressions and its positional mode. -/
structure subPattern where
  patt : List Nat
  subExprs : List subExpression
  mode : Mode
  deriving DecidableEq

/-- The struct `Glob`. -/
structure Glob where
  CaseMind : Bool
  subPatts : List subPattern
  deriving DecidableEq

/-! ## `getSubExprs` -/

/-- Loop variables of `getSubExprs`: the flag `escape`, the field
`subExpr.expr` and `result`.  (`subExpr.mode` is `matchStart` at the head
of every iteration.) -/
structure SubExprState where
  escape : Bool
  expr : List Nat
  result : List subExpression
  deriving DecidableEq

/-- One iteration of the range loop of `getSubExprs` on the byte `c`. -/
def getSubExprsStep (st : SubExprState) (c : Nat) : SubExprState :=
  if c = 42 ∨ c = 63 ∨ c = 92 then
    if st.escape then
      SubExprState.mk false (st.expr ++ [c]) st.result
    else if c = 92 then
      SubExprState.mk true st.expr st.result
    else if c = 63 then
      SubExprState.mk false []
        ((if st.expr ≠ [] then st.result ++ [subExpression.mk st.expr Mode.matchStart]
          else st.result) ++ [subExpression.mk [] Mode.matchOne])
    else
      st
  else
    if st.escape then
      SubExprState.mk false ((st.expr ++ [92]) ++ [c]) st.result
    else
      SubExprState.mk false (st.expr ++ [c]) st.result

/-- The method `getSubExprs`: the loop, the trailing escape and the flush
of the last literal run. -/
def getSubExprs (subPatt : List Nat) : List subExpression :=
  let st := subPatt.foldl getSubExprsStep (SubExprState.mk false [] [])
  let expr := if st.escape then st.expr ++ [92] else st.expr
  if expr.length > 0 then st.result ++ [subExpression.mk expr Mode.matchStart]
  else st.result

/-! ## `compile` -/

/-- Loop variables of `compile`: the flag `escape`, the fields
`subPatt.patt` and `subPatt.mode`, and `g.subPatts`.  (`subPatt.subExprs`
is `nil` at the head of every iteration.) -/
structure CompileState where
  escape : Bool
  patt : List Nat
  mode : Mode
  subPatts : List subPattern
  deriving DecidableEq

/-- One iteration of the range loop of `compile` on the byte `c`.  The
`default` branch leaves `escape` as it is, as the source does. -/
def compileStep (st : CompileState) (c : Nat) : CompileState :=
  if c = 42 ∨ c = 63 ∨ c = 92 then
    if st.escape then
      CompileState.mk false (st.patt ++ [c]) st.mode st.subPatts
    else if c = 92 then
      CompileState.mk true (st.patt ++ [c]) st.mode st.subPatts
    else if c = 42 then
      if st.patt ≠ [] then
        CompileState.mk false [] Mode.matchAny
          (st.subPatts ++ [subPattern.mk st.patt (getSubExprs st.patt) st.mode])
      else
        CompileState.mk false st.patt Mode.matchAny st.subPatts
    else
      CompileState.mk false (st.patt ++ [c]) st.mode st.subPatts
  else
    CompileState.mk st.escape (st.patt ++ [c]) st.mode st.subPatts

/-- The method `compile`, as the list of sub-patterns it leaves in
`g.subPatts` (which is empty before the call). -/
def compile (pattern : List Nat) : List subPattern :=
  let st := pattern.foldl compileStep (CompileState.mk false [] Mode.matchStart [])
  if st.patt.length > 0 then
    let mode :=
      match st.mode with
      | Mode.matchStart => Mode.matchFull
      | Mode.matchAny => Mode.matchEnd
      | m => m
    st.subPatts ++ [subPattern.mk st.patt (getSubExprs st.patt) mode]
  else
    st.subPatts

/-- The function `Compile`: case-insensitive by default. -/
def Compile (pattern : List Nat) : Glob :=
  Glob.mk false (compile pattern)

/-! ## Byte comparison and rune decoding -/

/-- The `switch` inside the case-insensitive loop of `equal`: the byte `c`
of `a` after the conversion towards the case of `bi = b[i]`, in `uint8`
arithmetic. -/
def foldCase (c bi : Nat) : Nat :=
  if c > bi ∧ c ≥ 97 ∧ c ≤ 122 then (c + 256 - 97 + 65) % 256
  else if c < bi ∧ c ≥ 65 ∧ c ≤ 90 then (c + 256 - 65 + 97) % 256
  else c

/-- The function `equal`. -/
def equal (a b : List Nat) (CaseMind : Bool) : Bool :=
  if a.length ≠ b.length then false
  else if CaseMind then (a.zip b).all (fun p => decide (p.1 = p.2))
  else (a.zip b).all (fun p => decide (foldCase p.1 p.2 = p.2))

/-- The table `first` of Go's `unicode/utf8` (information about the first
byte of an encoding). -/
def first (p0 : Nat) : Nat :=
  if p0 < 0x80 then 0xF0
  else if p0 < 0xC2 then 0xF1
  else if p0 < 0xE0 then 0x02
  else if p0 = 0xE0 then 0x13
  else if p0 < 0xED then 0x03
  else if p0 = 0xED then 0x23
  else if p0 < 0xF0 then 0x03
  else if p0 = 0xF0 then 0x34
  else if p0 < 0xF4 then 0x04
  else if p0 = 0xF4 then 0x44
  else 0xF1

/-- The table `acceptRanges` of Go's `unicode/utf8`: bounds of the second
byte. -/
def acceptRanges (i : Nat) : Nat × Nat :=
  match i with
  | 0 => (0x80, 0xBF)
  | 1 => (0xA0, 0xBF)
  | 2 => (0x80, 0x9F)
  | 3 => (0x90, 0xBF)
  | 4 => (0x80, 0x8F)
  | _ => (0, 0)

/-- The `size` result of `utf8.DecodeRune(p)` of the Go standard library,
which the matcher calls for `?` (the rune itself is discarded by the
source).  Transcribed from the library function: an empty input gives 0,
an invalid or truncated encoding gives 1. -/
def DecodeRuneSize (p : List Nat) : Nat :=
  match p with
  | [] => 0
  | p0 :: _ =>
    let x := first p0
    if x ≥ 0xF0 then 1
    else
      let sz := x % 8
      let accept := acceptRanges (x / 16)
      if p.length < sz then 1
      else
        let b1 := p.getD 1 0
        if b1 < accept.1 ∨ accept.2 < b1 then 1
        else if sz ≤ 2 then 2
        else
          let b2 := p.getD 2 0
          if b2 < 0x80 ∨ 0xBF < b2 then 1
          else if sz ≤ 3 then 3
          else
            let b3 := p.getD 3 0
            if b3 < 0x80 ∨ 0xBF < b3 then 1
            else 4

/-! ## The matcher -/

/-- The method `hasPrefix`; `(false, nil)` is `(false, [])`. -/
def hasPrefix (CaseMind : Bool) : List Nat → List subExpression → Bool × List Nat
  | b, [] => (true, b)
  | b, sub :: rest =>
    match sub.mode with
    | Mode.matchStart =>
      if b.length < sub.expr.length ∨
          equal (b.take sub.expr.length) sub.expr CaseMind = false then
        (false, [])
      else
        hasPrefix CaseMind (b.drop sub.expr.length) rest
    | Mode.matchOne =>
      if b.length = 0 then (false, [])
      else hasPrefix CaseMind (b.drop (DecodeRuneSize b)) rest
    | _ => hasPrefix CaseMind b rest

/-- Outcome of the inner loop `for len(b) > 0` of `hasMidfix`: the index
`sub.expr[0]` is out of range, the method returns `false, nil`, or the
loop is left (by `break` or by its condition) with a remaining `b`. -/
inductive ScanResult where
  | outOfRange
  | fail
  | next (b : List Nat)
  deriving DecidableEq

/-- The inner loop `for len(b) > 0` of `hasMidfix` for a literal
sub-expression `expr`. -/
def midfixScan (CaseMind : Bool) (expr : List Nat) : List Nat → ScanResult
  | [] => ScanResult.next []
  | b0 :: bs =>
    match expr with
    | [] => ScanResult.outOfRange
    | e0 :: _ =>
      if b0 = e0 then
        if (b0 :: bs).length < expr.length then ScanResult.fail
        else if equal ((b0 :: bs).take expr.length) expr CaseMind then
          ScanResult.next ((b0 :: bs).drop expr.length)
        else midfixScan CaseMind expr bs
      else midfixScan CaseMind expr bs

/-- The method `hasMidfix`; `none` is a panic. -/
def hasMidfix (CaseMind : Bool) : List Nat → List subExpression → Option (Bool × List Nat)
  | b, [] => some (true, b)
  | b, sub :: rest =>
    match sub.mode with
    | Mode.matchStart =>
      match midfixScan CaseMind sub.expr b with
      | ScanResult.outOfRange => none
      | ScanResult.fail => some (false, [])
      | ScanResult.next r => hasMidfix CaseMind r rest
    | Mode.matchOne =>
      if b.length = 0 then some (false, [])
      else hasMidfix CaseMind (b.drop (DecodeRuneSize b)) rest
    | _ => hasMidfix CaseMind b rest

/-- The loop of `hasSuffix`, on the sub-expressions from the last to the
first.  The `?` branch decodes at the front of `b` and cuts that many bytes
off its end, as the source does. -/
def hasSuffixLoop (CaseMind : Bool) : List Nat → List subExpression → Bool
  | _, [] => true
  | b, sub :: rest =>
    match sub.mode with
    | Mode.matchStart =>
      if b.length < sub.expr.length ∨
          equal (b.drop (b.length - sub.expr.length)) sub.expr CaseMind = false then
        false
      else
        hasSuffixLoop CaseMind (b.take (b.length - sub.expr.length)) rest
    | Mode.matchOne =>
      if b.length = 0 then false
      else hasSuffixLoop CaseMind (b.take (b.length - DecodeRuneSize b)) rest
    | _ => hasSuffixLoop CaseMind b rest

/-- The method `hasSuffix`: the index runs from `len(subExprs) - 1` down
to 0. -/
def hasSuffix (CaseMind : Bool) (b : List Nat) (subExprs : List subExpression) : Bool :=
  hasSuffixLoop CaseMind b subExprs.reverse

/-- The method `same`. -/
def same (CaseMind : Bool) (b : List Nat) (subExprs : List subExpression) : Bool :=
  let r := hasPrefix CaseMind b subExprs
  r.1 && decide (r.2.length = 0)

/-- The loop of the method `match` over `g.subPatts`; `none` is a panic.
A mode without a `case` (`matchOne`) goes on to the next sub-pattern. -/
def matchLoop (CaseMind : Bool) : List subPattern → List Nat → Option Bool
  | [], _ => some true
  | subPatt :: rest, b =>
    match subPatt.mode with
    | Mode.matchStart =>
      match hasPrefix CaseMind b subPatt.subExprs with
      | (true, r) => matchLoop CaseMind rest r
      | (false, _) => some false
    | Mode.matchAny =>
      match hasMidfix CaseMind b subPatt.subExprs with
      | none => none
      | some (true, r) => matchLoop CaseMind rest r
      | some (false, _) => some false
    | Mode.matchEnd => some (hasSuffix CaseMind b subPatt.subExprs)
    | Mode.matchFull => some (same CaseMind b subPatt.subExprs)
    | Mode.matchOne => matchLoop CaseMind rest b

/-- The methods `Glob.Match` and `Glob.match` (the first only calls the
second). -/
def Glob.Match (g : Glob) (b : List Nat) : Option Bool :=
  matchLoop g.CaseMind g.subPatts b

/-- The method `Glob.MatchString`: `match` on the bytes of the string. -/
def Glob.MatchString (g : Glob) (s : List Nat) : Option Bool :=
  matchLoop g.CaseMind g.subPatts s

/-- The function `Match`: compile, set `CaseMind`, match. -/
def Match (pattern : List Nat) (b : List Nat) (casemind : Bool) : Option Bool :=
  Glob.Match (Glob.mk casemind (Compile pattern).subPatts) b

/-- The function `MatchString`. -/
def MatchString (pattern s : List Nat) (casemind : Bool) : Option Bool :=
  Glob.MatchString (Glob.mk casemind (Compile pattern).subPatts) s

/-! ## The matcher with every index and slice checked

The same methods once more, with each index expression and each slice
expression of the source tested against the length of the slice it is
taken from (a slice bound may in Go reach the capacity; the length is the
stricter test).  `none` is a run-time panic. -/

/-- The slice expression `b[:hi]`. -/
def sliceTo (b : List Nat) (hi : Nat) : Option (List Nat) :=
  if hi ≤ b.length then some (b.take hi) else none

/-- The slice expression `b[lo:]`. -/
def sliceFrom (b : List Nat) (lo : Nat) : Option (List Nat) :=
  if lo ≤ b.length then some (b.drop lo) else none

/-- The two range loops of `equal` over `a`, from the index `i` on, with
the index expression `b[i]` checked. -/
def equalLoopChecked (CaseMind : Bool) (b : List Nat) : List Nat → Nat → Option Bool
  | [], _ => some true
  | c :: rest, i =>
    match b.get? i with
    | none => none
    | some bi =>
      if CaseMind then
        if c ≠ bi then some false else equalLoopChecked CaseMind b rest (i + 1)
      else
        if foldCase c bi ≠ bi then some false else equalLoopChecked CaseMind b rest (i + 1)

/-- The function `equal`, with `b[i]` checked. -/
def equalChecked (a b : List Nat) (CaseMind : Bool) : Option Bool :=
  if a.length ≠ b.length then some false
  else equalLoopChecked CaseMind b a 0

/-- The method `hasPrefix`, with `b[:len(sub.expr)]`, `b[len(sub.expr):]`
and `b[size:]` checked. -/
def hasPrefixChecked (CaseMind : Bool) :
    List Nat → List subExpression → Option (Bool × List Nat)
  | b, [] => some (true, b)
  | b, sub :: rest =>
    match sub.mode with
    | Mode.matchStart =>
      if b.length < sub.expr.length then some (false, [])
      else
        match sliceTo b sub.expr.length with
        | none => none
        | some head =>
          match equalChecked head sub.expr CaseMind with
          | none => none
          | some false => some (false, [])
          | some true =>
            match sliceFrom b sub.expr.length with
            | none => none
            | some r => hasPrefixChecked CaseMind r rest
    | Mode.matchOne =>
      if b.length = 0 then some (false, [])
      else
        match sliceFrom b (DecodeRuneSize b) with
        | none => none
        | some r => hasPrefixChecked CaseMind r rest
    | _ => hasPrefixChecked CaseMind b rest

/-- The inner loop of `hasMidfix`, with `b[0]`, `sub.expr[0]`,
`b[:len(sub.expr)]`, `b[len(sub.expr):]` and `b[1:]` checked. -/
def midfixScanChecked (CaseMind : Bool) (expr : List Nat) : List Nat → ScanResult
  | [] => ScanResult.next []
  | b0 :: bs =>
    match expr.get? 0 with
    | none => ScanResult.outOfRange
    | some e0 =>
      if b0 = e0 then
        if (b0 :: bs).length < expr.length then ScanResult.fail
        else
          match sliceTo (b0 :: bs) expr.length with
          | none => ScanResult.outOfRange
          | some head =>
            match equalChecked head expr CaseMind with
            | none => ScanResult.outOfRange
            | some true =>
              match sliceFrom (b0 :: bs) expr.length with
              | none => ScanResult.outOfRange
              | some r => ScanResult.next r
            | some false => midfixScanChecked CaseMind expr bs
      else midfixScanChecked CaseMind expr bs

/-- The method `hasMidfix`, checked. -/
def hasMidfixChecked (CaseMind : Bool) :
    List Nat → List subExpression → Option (Bool × List Nat)
  | b, [] => some (true, b)
  | b, sub :: rest =>
    match sub.mode with
    | Mode.matchStart =>
      match midfixScanChecked CaseMind sub.expr b with
      | ScanResult.outOfRange => none
      | ScanResult.fail => some (false, [])
      | ScanResult.next r => hasMidfixChecked CaseMind r rest
    | Mode.matchOne =>
      if b.length = 0 then some (false, [])
      else
        match sliceFrom b (DecodeRuneSize b) with
        | none => none
        | some r => hasMidfixChecked CaseMind r rest
    | _ => hasMidfixChecked CaseMind b rest

/-- The loop of `hasSuffix`, with `b[len(b)-len(sub.expr):]`,
`b[:len(b)-len(sub.expr)]` and `b[:len(b)-size]` checked (a negative
bound is out of range). -/
def hasSuffixLoopChecked (CaseMind : Bool) : List Nat → List subExpression → Option Bool
  | _, [] => some true
  | b, sub :: rest =>
    match sub.mode with
    | Mode.matchStart =>
      if b.length < sub.expr.length then some false
      else
        match sliceFrom b (b.length - sub.expr.length) with
        | none => none
        | some tail =>
          match equalChecked tail sub.expr CaseMind with
          | none => none
          | some false => some false
          | some true =>
            match sliceTo b (b.length - sub.expr.length) with
            | none => none
            | some r => hasSuffixLoopChecked CaseMind r rest
    | Mode.matchOne =>
      if b.length = 0 then some false
      else if b.length < DecodeRuneSize b then none
      else
        match sliceTo b (b.length - DecodeRuneSize b) with
        | none => none
        | some r => hasSuffixLoopChecked CaseMind r rest
    | _ => hasSuffixLoopChecked CaseMind b rest

/-- The method `hasSuffix`, checked. -/
def hasSuffixChecked (CaseMind : Bool) (b : List Nat) (subExprs : List subExpression) :
    Option Bool :=
  hasSuffixLoopChecked CaseMind b subExprs.reverse

/-- The method `same`, checked. -/
def sameChecked (CaseMind : Bool) (b : List Nat) (subExprs : List subExpression) :
    Option Bool :=
  match hasPrefixChecked CaseMind b subExprs with
  | none => none
  | some r => some (r.1 && decide (r.2.length = 0))

/-- The loop of `match`, over the checked methods. -/
def matchLoopChecked (CaseMind : Bool) : List subPattern → List Nat → Option Bool
  | [], _ => some true
  | subPatt :: rest, b =>
    match subPatt.mode with
    | Mode.matchStart =>
      match hasPrefixChecked CaseMind b subPatt.subExprs with
      | none => none
      | some (true, r) => matchLoopChecked CaseMind rest r
      | some (false, _) => some false
    | Mode.matchAny =>
      match hasMidfixChecked CaseMind b subPatt.subExprs with
      | none => none
      | some (true, r) => matchLoopChecked CaseMind rest r
      | some (false, _) => some false
    | Mode.matchEnd => hasSuffixChecked CaseMind b subPatt.subExprs
    | Mode.matchFull => sameChecked CaseMind b subPatt.subExprs
    | Mode.matchOne => matchLoopChecked CaseMind rest b

/-- The function `Match`, over the checked methods. -/
def MatchChecked (pattern : List Nat) (b : List Nat) (casemind : Bool) : Option Bool :=
  matchLoopChecked casemind (Compile pattern).subPatts b

/-! ## Vocabulary of the statements -/

/-- A byte string without any of the three special bytes `*`, `?`, `\`. -/
def noSpecial (w : List Nat) : Prop :=
  ∀ c ∈ w, c ≠ 42 ∧ c ≠ 63 ∧ c ≠ 92

instance (w : List Nat) : Decidable (noSpecial w) :=
  inferInstanceAs (Decidable (∀ c ∈ w, c ≠ 42 ∧ c ≠ 63 ∧ c ≠ 92))

/-- A pattern without the wildcard bytes `*` and `?` (a `\` is allowed). -/
def noWildcard (p : List Nat) : Prop :=
  ∀ c ∈ p, c ≠ 42 ∧ c ≠ 63

instance (p : List Nat) : Decidable (noWildcard p) :=
  inferInstanceAs (Decidable (∀ c ∈ p, c ≠ 42 ∧ c ≠ 63))

/-- No two consecutive bytes of `p` are both `\`. -/
def noDoubleBackslash (p : List Nat) : Prop :=
  List.Chain' (fun a b => ¬ (a = 92 ∧ b = 92)) p

instance (p : List Nat) : Decidable (noDoubleBackslash p) :=
  inferInstanceAs (Decidable (List.Chain' (fun a b => ¬ (a = 92 ∧ b = 92)) p))

/-- The literal run that `getSubExprs` flushes after its loop: the current
run, with a `\` appended when the escape flag is still set. -/
def pendingLiteral (st : SubExprState) : List Nat :=
  if st.escape then st.expr ++ [92] else st.expr

/-- Repeated front decoding with `DecodeRuneSize`, at most `fuel` steps:
the number of characters taken off `s` until it is empty. -/
def runeCountFuel : Nat → List Nat → Nat
  | 0, _ => 0
  | fuel + 1, s =>
    if s = [] then 0 else 1 + runeCountFuel fuel (s.drop (DecodeRuneSize s))

/-- The number of characters `s` splits into by repeated front decoding
(every step takes at least one byte, so `s.length` steps are enough; see
`runeCount_cons`). -/
def runeCount (s : List Nat) : Nat :=
  runeCountFuel s.length s

/-- Valid UTF-8, by repeated front decoding: every character is one ASCII
byte or a well-formed multi-byte encoding (an ill-formed one decodes with
width 1). -/
def validUTF8Fuel : Nat → List Nat → Bool
  | 0, s => s.isEmpty
  | _ + 1, [] => true
  | fuel + 1, p0 :: t =>
    (decide (p0 < 0x80) || decide (1 < DecodeRuneSize (p0 :: t))) &&
      validUTF8Fuel fuel ((p0 :: t).drop (DecodeRuneSize (p0 :: t)))

/-- Valid UTF-8 (`utf8.Valid`), with enough fuel for every byte. -/
def validUTF8 (s : List Nat) : Bool :=
  validUTF8Fuel s.length s

/-- The escaping `esc` of a literal text: a `\` in front of every `*`, `?`
and `\`. -/
def esc : List Nat → List Nat
  | [] => []
  | c :: t => if c = 42 ∨ c = 63 ∨ c = 92 then 92 :: c :: esc t else c :: esc t

/-- ASCII lower-casing of one byte: `A`..`Z` go to `a`..`z`. -/
def asciiLower (c : Nat) : Nat :=
  if 65 ≤ c ∧ c ≤ 90 then c + 32 else c

/-- An ASCII letter, `A`..`Z` or `a`..`z`. -/
def isAsciiLetter (c : Nat) : Prop :=
  (65 ≤ c ∧ c ≤ 90) ∨ (97 ≤ c ∧ c ≤ 122)

/-- The bytes `x` and `y` are the same ASCII letter in different case. -/
def sameLetterOtherCase (x y : Nat) : Prop :=
  isAsciiLetter x ∧ isAsciiLetter y ∧ x ≠ y ∧ asciiLower x = asciiLower y

/-- The modes of the segments of a compiled pattern, in order. -/
def roles (pattern : List Nat) : List Mode :=
  (compile pattern).map subPattern.mode

/-- A list of modes made of an optional `matchStart`, then `k` times
`matchAny`. -/
def startThenAny (hasStart : Bool) (k : Nat) : List Mode :=
  (if hasStart then [Mode.matchStart] else []) ++ List.replicate k Mode.matchAny

/-- Invariant of the loop of `compile` on the modes: before the first `*`
the mode is `matchStart` and nothing is emitted; afterwards the mode is
`matchAny` and the emitted modes are an optional `matchStart` followed by
`matchAny` only. -/
def rolesInv (st : CompileState) : Prop :=
  (st.mode = Mode.matchStart ∧ st.subPatts = []) ∨
    (st.mode = Mode.matchAny ∧
      ∃ (hasStart : Bool) (k : Nat),
        st.subPatts.map subPattern.mode = startThenAny hasStart k)

/-- A literal sub-expression that has a successor is followed by a single
wildcard. -/
def literalThenWildcard (x y : subExpression) : Prop :=
  x.mode = Mode.matchStart → y.mode = Mode.matchOne

/-- Invariant of the loop of `getSubExprs` on `result`: a literal entry is
followed by a wildcard entry, and the last entry, if any, is a wildcard. -/
def resultInv (r : List subExpression) : Prop :=
  List.Chain' literalThenWildcard r ∧ ∀ x ∈ r.getLast?, x.mode = Mode.matchOne

/-- A sub-expression as `getSubExprs` builds it: a literal with at least
one byte, or a single wildcard without bytes. -/
def wellFormedSubExpr (e : subExpression) : Prop :=
  (e.mode = Mode.matchStart ∧ e.expr ≠ []) ∨ (e.mode = Mode.matchOne ∧ e.expr = [])

/-- The loop of `getSubExprs` has something to deliver: an entry in
`result`, a byte in the current run or a pending escape. -/
def productive (st : SubExprState) : Prop :=
  st.result ≠ [] ∨ st.expr ≠ [] ∨ st.escape = true

/-- A segment text as `compile` flushes it: not empty and not starting
with `*`. -/
def goodText (patt : List Nat) : Prop :=
  patt ≠ [] ∧ ∀ c, patt.head? = some c → c ≠ 42

/-- Invariant of the loop of `compile`: an escape is only pending inside a
non-empty text, the current text does not start with `*`, and every emitted
segment has a good text and the sub-expressions of that text. -/
def compileInv (st : CompileState) : Prop :=
  (st.patt = [] → st.escape = false) ∧
    (∀ c, st.patt.head? = some c → c ≠ 42) ∧
    ∀ sp ∈ st.subPatts, goodText sp.patt ∧ sp.subExprs = getSubExprs sp.patt

/-! ## Lemmas on `equal` -/

theorem all_zip_eq_iff (a : List Nat) :
    ∀ b : List Nat, a.length = b.length →
      ((a.zip b).all (fun p => decide (p.1 = p.2)) = true ↔ a = b) := by
  induction a with
  | nil =>
    intro b hb
    cases b with
    | nil => simp
    | cons y ys => simp at hb
  | cons x xs ih =>
    intro b hb
    cases b with
    | nil => simp at hb
    | cons y ys =>
      have hlen : xs.length = ys.length := by simpa using hb
      have h := ih ys hlen
      simp only [List.zip_cons_cons, List.all_cons, Bool.and_eq_true, decide_eq_true_eq, h]
      constructor
      · rintro ⟨h1, h2⟩
        rw [h1, h2]
      · intro h3
        injection h3 with h4 h5
        exact ⟨h4, h5⟩

/-- Case-sensitive `equal` is equality of the two byte sequences. -/
theorem equal_true_iff (a b : List Nat) : equal a b true = true ↔ a = b := by
  unfold equal
  by_cases hlen : a.length = b.length
  · simp only [hlen, ne_eq, not_true_eq_false, if_false, if_true]
    exact all_zip_eq_iff a b hlen
  · simp only [ne_eq, hlen, not_false_eq_true, if_true]
    constructor
    · intro h
      cases h
    · intro h
      exact absurd (congrArg List.length h) hlen

theorem equal_self (a : List Nat) : equal a a true = true :=
  (equal_true_iff a a).mpr rfl

/-! ## Lemmas on the two compiler loops over plain bytes -/

theorem getSubExprsStep_plain (e : List Nat) (r : List subExpression) (c : Nat)
    (hc : c ≠ 42 ∧ c ≠ 63 ∧ c ≠ 92) :
    getSubExprsStep (SubExprState.mk false e r) c = SubExprState.mk false (e ++ [c]) r := by
  obtain ⟨h1, h2, h3⟩ := hc
  simp [getSubExprsStep, h1, h2, h3]

theorem getSubExprs_foldl_plain (w : List Nat) :
    ∀ (e : List Nat) (r : List subExpression), noSpecial w →
      w.foldl getSubExprsStep (SubExprState.mk false e r) = SubExprState.mk false (e ++ w) r := by
  induction w with
  | nil => intro e r _; simp
  | cons c t ih =>
    intro e r hw
    have hc : c ≠ 42 ∧ c ≠ 63 ∧ c ≠ 92 := hw c (List.mem_cons_self c t)
    have ht : noSpecial t := fun d hd => hw d (List.mem_cons_of_mem c hd)
    rw [List.foldl_cons, getSubExprsStep_plain e r c hc, ih (e ++ [c]) r ht]
    simp

theorem compileStep_plain (st : CompileState) (c : Nat)
    (hc : c ≠ 42 ∧ c ≠ 63 ∧ c ≠ 92) :
    compileStep st c = CompileState.mk st.escape (st.patt ++ [c]) st.mode st.subPatts := by
  obtain ⟨h1, h2, h3⟩ := hc
  simp [compileStep, h1, h2, h3]

theorem compile_foldl_plain (w : List Nat) :
    ∀ (esc : Bool) (p : List Nat) (m : Mode) (sp : List subPattern), noSpecial w →
      w.foldl compileStep (CompileState.mk esc p m sp) = CompileState.mk esc (p ++ w) m sp := by
  induction w with
  | nil => intro esc p m sp _; simp
  | cons c t ih =>
    intro esc p m sp hw
    have hc : c ≠ 42 ∧ c ≠ 63 ∧ c ≠ 92 := hw c (List.mem_cons_self c t)
    have ht : noSpecial t := fun d hd => hw d (List.mem_cons_of_mem c hd)
    rw [List.foldl_cons, compileStep_plain _ c hc, ih _ _ _ _ ht]
    simp

/-- A non-empty run of plain bytes is one literal sub-expression. -/
theorem getSubExprs_plain (w : List Nat) (hw : noSpecial w) (hne : w ≠ []) :
    getSubExprs w = [subExpression.mk w Mode.matchStart] := by
  unfold getSubExprs
  rw [getSubExprs_foldl_plain w [] [] hw]
  have hpos : 0 < w.length := List.length_pos.mpr hne
  simp [hpos]

/-! ## Lemmas on one literal sub-expression in the matcher -/

theorem equal_false_of_ne (a b : List Nat) (h : a ≠ b) : equal a b true = false := by
  cases he : equal a b true with
  | false => rfl
  | true => exact absurd ((equal_true_iff a b).mp he) h

theorem hasPrefix_literal (b u : List Nat) :
    hasPrefix true b [subExpression.mk u Mode.matchStart] =
      if b.take u.length = u then (true, b.drop u.length) else (false, []) := by
  simp only [hasPrefix]
  by_cases h : b.take u.length = u
  · have hl : ¬ b.length < u.length := by
      have h2 := congrArg List.length h
      simp only [List.length_take] at h2
      omega
    simp [h, hl, equal_self]
  · simp [h, equal_false_of_ne _ _ h]

theorem hasSuffix_literal (b v : List Nat) :
    hasSuffix true b [subExpression.mk v Mode.matchStart] =
      decide (b.drop (b.length - v.length) = v) := by
  simp only [hasSuffix, List.reverse_cons, List.reverse_nil, List.nil_append, hasSuffixLoop]
  by_cases h : b.drop (b.length - v.length) = v
  · have hl : ¬ b.length < v.length := by
      have h2 := congrArg List.length h
      simp only [List.length_drop] at h2
      intro h3
      have h4 : v.length = 0 := by omega
      omega
    simp [h, hl, equal_self]
  · simp [h, equal_false_of_ne _ _ h]

theorem take_eq_iff_prefix (u s : List Nat) : s.take u.length = u ↔ u <+: s := by
  rw [List.prefix_iff_eq_take]
  exact eq_comm

theorem drop_eq_iff_suffix (v s : List Nat) : s.drop (s.length - v.length) = v ↔ v <:+ s := by
  rw [List.suffix_iff_eq_drop]
  exact eq_comm

/-! ## Shape of the compiled pattern `u*v` -/

theorem compile_star_between (u v : List Nat) (hu : noSpecial u) (hv : noSpecial v) :
    compile (u ++ [42] ++ v) =
      (if u ≠ [] then [subPattern.mk u [subExpression.mk u Mode.matchStart] Mode.matchStart]
        else []) ++
      (if v ≠ [] then [subPattern.mk v [subExpression.mk v Mode.matchStart] Mode.matchEnd]
        else []) := by
  unfold compile
  rw [List.foldl_append, List.foldl_append, compile_foldl_plain u _ _ _ _ hu]
  by_cases hue : u = []
  · by_cases hve : v = []
    · subst hue; subst hve
      simp [compileStep]
    · subst hue
      have hpos : 0 < v.length := List.length_pos.mpr hve
      simp [compileStep, compile_foldl_plain v _ _ _ _ hv, hve, getSubExprs_plain v hv hve]
  · by_cases hve : v = []
    · subst hve
      simp [compileStep, hue, getSubExprs_plain u hu hue]
    · have hpos : 0 < v.length := List.length_pos.mpr hve
      simp [compileStep, compile_foldl_plain v _ _ _ _ hv, hue, hve,
        getSubExprs_plain u hu hue, getSubExprs_plain v hv hve]

/-! ## Patterns without wildcards -/

theorem foldCase_self (c : Nat) : foldCase c c = c := by
  simp [foldCase]

theorem all_zip_foldCase_self (a : List Nat) :
    (a.zip a).all (fun p => decide (foldCase p.1 p.2 = p.2)) = true := by
  induction a with
  | nil => simp
  | cons x xs ih => simp [foldCase_self, ih]

/-- Both modes of `equal` accept identical byte sequences. -/
theorem equal_refl (a : List Nat) (cm : Bool) : equal a a cm = true := by
  cases cm with
  | true => exact equal_self a
  | false =>
    unfold equal
    simp [all_zip_foldCase_self]

theorem equal_length (a b : List Nat) (cm : Bool) (h : equal a b cm = true) :
    a.length = b.length := by
  unfold equal at h
  by_cases hl : a.length = b.length
  · exact hl
  · simp [hl] at h

/-- Without an unescaped `*` the loop of `compile` only appends. -/
theorem compile_foldl_noStar (w : List Nat) :
    ∀ (st : CompileState), (∀ c ∈ w, c ≠ 42) →
      (w.foldl compileStep st).patt = st.patt ++ w ∧
      (w.foldl compileStep st).mode = st.mode ∧
      (w.foldl compileStep st).subPatts = st.subPatts := by
  induction w with
  | nil => intro st _; simp
  | cons c t ih =>
    intro st hw
    have hc : c ≠ 42 := hw c (List.mem_cons_self c t)
    have ht : ∀ d ∈ t, d ≠ 42 := fun d hd => hw d (List.mem_cons_of_mem c hd)
    have hstep : (compileStep st c).patt = st.patt ++ [c] ∧
        (compileStep st c).mode = st.mode ∧ (compileStep st c).subPatts = st.subPatts := by
      unfold compileStep
      split_ifs <;> simp_all
    obtain ⟨h1, h2, h3⟩ := ih (compileStep st c) ht
    rw [List.foldl_cons, h1, h2, h3, hstep.1, hstep.2.1, hstep.2.2]
    simp

/-- A non-empty pattern without `*` compiles to one `matchFull` segment. -/
theorem compile_noStar (p : List Nat) (hp : ∀ c ∈ p, c ≠ 42) (hne : p ≠ []) :
    compile p = [subPattern.mk p (getSubExprs p) Mode.matchFull] := by
  obtain ⟨h1, h2, h3⟩ :=
    compile_foldl_noStar p (CompileState.mk false [] Mode.matchStart []) hp
  have hpos : 0 < p.length := List.length_pos.mpr hne
  unfold compile
  simp only [h1, h2, h3, List.nil_append]
  simp [hpos]

/-- Without `?` the loop of `getSubExprs` emits nothing and the pending
literal is never longer than what was read. -/
theorem getSubExprs_foldl_noQuestion (w : List Nat) :
    ∀ (st : SubExprState), (∀ c ∈ w, c ≠ 63) →
      (w.foldl getSubExprsStep st).result = st.result ∧
      (pendingLiteral (w.foldl getSubExprsStep st)).length ≤
        (pendingLiteral st).length + w.length := by
  induction w with
  | nil => intro st _; simp
  | cons c t ih =>
    intro st hw
    have hc : c ≠ 63 := hw c (List.mem_cons_self c t)
    have ht : ∀ d ∈ t, d ≠ 63 := fun d hd => hw d (List.mem_cons_of_mem c hd)
    have hstep : (getSubExprsStep st c).result = st.result ∧
        (pendingLiteral (getSubExprsStep st c)).length ≤ (pendingLiteral st).length + 1 := by
      unfold getSubExprsStep pendingLiteral
      split_ifs <;> simp_all
    obtain ⟨h1, h2⟩ := ih (getSubExprsStep st c) ht
    rw [List.foldl_cons, h1, hstep.1]
    refine ⟨rfl, ?_⟩
    have h3 := hstep.2
    simp only [List.length_cons]
    omega

/-- Without `?`, `getSubExprs` gives no sub-expression or one literal that
is not longer than its input. -/
theorem getSubExprs_noQuestion (p : List Nat) (hp : ∀ c ∈ p, c ≠ 63) :
    getSubExprs p = [] ∨
      ∃ l, l.length ≤ p.length ∧ getSubExprs p = [subExpression.mk l Mode.matchStart] := by
  obtain ⟨h1, h2⟩ := getSubExprs_foldl_noQuestion p (SubExprState.mk false [] []) hp
  have hunf : getSubExprs p =
      if (pendingLiteral (p.foldl getSubExprsStep (SubExprState.mk false [] []))).length > 0
      then (p.foldl getSubExprsStep (SubExprState.mk false [] [])).result ++
        [subExpression.mk (pendingLiteral (p.foldl getSubExprsStep (SubExprState.mk false [] [])))
          Mode.matchStart]
      else (p.foldl getSubExprsStep (SubExprState.mk false [] [])).result := rfl
  rw [hunf, h1]
  split_ifs with h
  · right
    refine ⟨_, ?_, rfl⟩
    simpa [pendingLiteral] using h2
  · left
    rfl

/-- Without wildcards and without a doubled `\`, the pending literal of
the loop of `getSubExprs` grows by exactly the bytes read. -/
theorem getSubExprs_foldl_literal (w : List Nat) :
    ∀ (st : SubExprState), noWildcard w → noDoubleBackslash w →
      (st.escape = true → w.head? ≠ some 92) →
      (w.foldl getSubExprsStep st).result = st.result ∧
      pendingLiteral (w.foldl getSubExprsStep st) = pendingLiteral st ++ w := by
  induction w with
  | nil => intro st _ _ _; simp
  | cons c t ih =>
    intro st hw hch hesc
    obtain ⟨hc1, hc2⟩ := hw c (List.mem_cons_self c t)
    have ht : noWildcard t := fun d hd => hw d (List.mem_cons_of_mem c hd)
    have hcht : noDoubleBackslash t := List.Chain'.tail hch
    rw [List.foldl_cons]
    by_cases hc3 : c = 92
    · have he : st.escape = false := by
        cases hb : st.escape with
        | false => rfl
        | true => exact absurd (by simp [hc3]) (hesc hb)
      have hstep : getSubExprsStep st c = SubExprState.mk true st.expr st.result := by
        simp [getSubExprsStep, hc3, he]
      have hhead : t.head? ≠ some 92 := by
        cases t with
        | nil => simp
        | cons d t2 =>
          have hrel := List.Chain'.rel_head hch
          simp only [List.head?_cons, ne_eq, Option.some.injEq]
          intro hd
          exact hrel ⟨hc3, hd⟩
      obtain ⟨h1, h2⟩ := ih (getSubExprsStep st c) ht hcht (by rw [hstep]; intro _; exact hhead)
      rw [h1, h2, hstep]
      simp [pendingLiteral, he, hc3]
    · have hstep : getSubExprsStep st c =
          SubExprState.mk false (pendingLiteral st ++ [c]) st.result := by
        unfold getSubExprsStep pendingLiteral
        cases hb : st.escape <;> simp [hc1, hc2, hc3]
      obtain ⟨h1, h2⟩ := ih (getSubExprsStep st c) ht hcht (by rw [hstep]; intro h; cases h)
      rw [h1, h2, hstep]
      simp [pendingLiteral]

/-- Such a non-empty pattern is its own single literal. -/
theorem getSubExprs_literal (p : List Nat) (hw : noWildcard p) (hd : noDoubleBackslash p)
    (hne : p ≠ []) : getSubExprs p = [subExpression.mk p Mode.matchStart] := by
  obtain ⟨h1, h2⟩ := getSubExprs_foldl_literal p (SubExprState.mk false [] []) hw hd
    (by intro h; cases h)
  have hunf : getSubExprs p =
      if (pendingLiteral (p.foldl getSubExprsStep (SubExprState.mk false [] []))).length > 0
      then (p.foldl getSubExprsStep (SubExprState.mk false [] [])).result ++
        [subExpression.mk (pendingLiteral (p.foldl getSubExprsStep (SubExprState.mk false [] [])))
          Mode.matchStart]
      else (p.foldl getSubExprsStep (SubExprState.mk false [] [])).result := rfl
  have hpos : 0 < p.length := List.length_pos.mpr hne
  rw [hunf, h1, h2]
  simp [pendingLiteral, hpos]

/-- A single literal in `same`, case-sensitive: equality with the whole
candidate. -/
theorem same_literal (s l : List Nat) :
    same true s [subExpression.mk l Mode.matchStart] = true ↔ s = l := by
  unfold same
  rw [hasPrefix_literal]
  by_cases hp : s.take l.length = l
  · simp only [hp, if_true, Bool.true_and, decide_eq_true_eq, List.length_drop]
    constructor
    · intro h
      have hs := List.take_append_drop l.length s
      have hd : s.drop l.length = [] := by
        apply List.eq_nil_of_length_eq_zero
        simpa using h
      rw [hp, hd, List.append_nil] at hs
      exact hs.symm
    · intro h
      rw [h]
      simp
  · simp only [hp, if_false, Bool.false_and]
    constructor
    · intro h
      cases h
    · intro h
      exact absurd (by rw [h]; simp) hp

/-! ## Rune decoding -/

theorem DecodeRuneSize_pos (a : Nat) (t : List Nat) : 1 ≤ DecodeRuneSize (a :: t) := by
  unfold DecodeRuneSize
  simp only []
  split_ifs <;> omega

theorem runeCountFuel_enough (fuel : Nat) :
    ∀ (s : List Nat) (fuel2 : Nat), s.length ≤ fuel → s.length ≤ fuel2 →
      runeCountFuel fuel s = runeCountFuel fuel2 s := by
  induction fuel with
  | zero =>
    intro s fuel2 h1 _
    have hs : s = [] := List.eq_nil_of_length_eq_zero (by omega)
    subst hs
    cases fuel2 <;> simp [runeCountFuel]
  | succ k ih =>
    intro s fuel2 h1 h2
    cases s with
    | nil => cases fuel2 <;> simp [runeCountFuel]
    | cons a t =>
      cases fuel2 with
      | zero => simp at h2
      | succ k2 =>
        have hpos := DecodeRuneSize_pos a t
        have hlen : ((a :: t).drop (DecodeRuneSize (a :: t))).length ≤ t.length := by
          simp only [List.length_drop, List.length_cons]
          omega
        simp only [List.length_cons] at h1 h2
        simp only [runeCountFuel, reduceCtorEq, if_false]
        rw [ih _ k2 (by omega) (by omega)]

theorem runeCount_nil : runeCount [] = 0 := rfl

/-- The defining equation of `runeCount`: one character, then the rest. -/
theorem runeCount_cons (a : Nat) (t : List Nat) :
    runeCount (a :: t) = 1 + runeCount ((a :: t).drop (DecodeRuneSize (a :: t))) := by
  have hpos := DecodeRuneSize_pos a t
  have hlen : ((a :: t).drop (DecodeRuneSize (a :: t))).length ≤ t.length := by
    simp only [List.length_drop, List.length_cons]
    omega
  unfold runeCount
  simp only [List.length_cons, runeCountFuel, reduceCtorEq, if_false]
  rw [runeCountFuel_enough t.length _ _ hlen (le_refl _)]

theorem decodeSize_le_aux (x len lo hi b1 b2 b3 : Nat)
    (hx : 0xF0 ≤ x ∨ 2 ≤ x % 8) (hlen : 1 ≤ len) :
    (if x ≥ 0xF0 then 1
      else if len < x % 8 then 1
      else if b1 < lo ∨ hi < b1 then 1
      else if x % 8 ≤ 2 then 2
      else if b2 < 0x80 ∨ 0xBF < b2 then 1
      else if x % 8 ≤ 3 then 3
      else if b3 < 0x80 ∨ 0xBF < b3 then 1
      else 4) ≤ len := by
  split_ifs <;> omega

theorem first_cases (a : Nat) : 0xF0 ≤ first a ∨ 2 ≤ first a % 8 := by
  unfold first
  split_ifs <;> first | (left; decide) | (right; decide)

/-- The decoder never reports more bytes than its input has. -/
theorem DecodeRuneSize_le (s : List Nat) : DecodeRuneSize s ≤ s.length := by
  cases s with
  | nil => simp [DecodeRuneSize]
  | cons a t =>
    exact decodeSize_le_aux (first a) (a :: t).length (acceptRanges (first a / 16)).1
      (acceptRanges (first a / 16)).2 ((a :: t).getD 1 0) ((a :: t).getD 2 0)
      ((a :: t).getD 3 0) (first_cases a) (by simp)

/-! ## Patterns of `*` only and of `?` only -/

theorem compile_foldl_stars (n : Nat) :
    (List.replicate n 42).foldl compileStep (CompileState.mk false [] Mode.matchAny []) =
      CompileState.mk false [] Mode.matchAny [] := by
  induction n with
  | zero => rfl
  | succ k ih =>
    rw [List.replicate_succ, List.foldl_cons]
    have hstep : compileStep (CompileState.mk false [] Mode.matchAny []) 42 =
        CompileState.mk false [] Mode.matchAny [] := by
      simp [compileStep]
    rw [hstep, ih]

theorem compile_stars (n : Nat) : compile (List.replicate n 42) = [] := by
  cases n with
  | zero => rfl
  | succ k =>
    unfold compile
    rw [List.replicate_succ, List.foldl_cons]
    have hstep : compileStep (CompileState.mk false [] Mode.matchStart []) 42 =
        CompileState.mk false [] Mode.matchAny [] := by
      simp [compileStep]
    rw [hstep, compile_foldl_stars]
    simp

theorem getSubExprs_foldl_questions (n : Nat) :
    ∀ r : List subExpression,
      (List.replicate n 63).foldl getSubExprsStep (SubExprState.mk false [] r) =
        SubExprState.mk false [] (r ++ List.replicate n (subExpression.mk [] Mode.matchOne)) := by
  induction n with
  | zero => intro r; simp
  | succ k ih =>
    intro r
    rw [List.replicate_succ, List.foldl_cons]
    have hstep : getSubExprsStep (SubExprState.mk false [] r) 63 =
        SubExprState.mk false [] (r ++ [subExpression.mk [] Mode.matchOne]) := by
      simp [getSubExprsStep]
    rw [hstep, ih, List.replicate_succ]
    simp

theorem getSubExprs_questions (n : Nat) :
    getSubExprs (List.replicate n 63) =
      List.replicate n (subExpression.mk [] Mode.matchOne) := by
  unfold getSubExprs
  rw [getSubExprs_foldl_questions]
  simp

theorem runeCount_eq_zero (s : List Nat) : runeCount s = 0 ↔ s = [] := by
  cases s with
  | nil => simp [runeCount_nil]
  | cons a t =>
    rw [runeCount_cons]
    simp

/-- `same` on `n` single wildcards counts the characters of the candidate. -/
theorem same_questions (cm : Bool) (n : Nat) :
    ∀ s : List Nat,
      same cm s (List.replicate n (subExpression.mk [] Mode.matchOne)) = true ↔
        runeCount s = n := by
  induction n with
  | zero =>
    intro s
    rw [runeCount_eq_zero]
    simp [same, hasPrefix, List.length_eq_zero]
  | succ k ih =>
    intro s
    cases s with
    | nil =>
      simp [same, hasPrefix, List.replicate_succ, runeCount_nil]
    | cons a t =>
      have h := ih ((a :: t).drop (DecodeRuneSize (a :: t)))
      rw [runeCount_cons]
      unfold same at h
      unfold same
      simp only [List.replicate_succ, hasPrefix, List.length_cons, Nat.add_one_ne_zero,
        if_false]
      rw [h]
      omega

/-! ## Escaped text and the trailing escape -/

theorem compile_foldl_esc (w : List Nat) :
    ∀ (p : List Nat) (m : Mode) (sp : List subPattern),
      (esc w).foldl compileStep (CompileState.mk false p m sp) =
        CompileState.mk false (p ++ esc w) m sp := by
  induction w with
  | nil => intro p m sp; simp [esc]
  | cons c t ih =>
    intro p m sp
    by_cases hc : c = 42 ∨ c = 63 ∨ c = 92
    · have h1 : compileStep (CompileState.mk false p m sp) 92 =
          CompileState.mk true (p ++ [92]) m sp := by
        simp [compileStep]
      have h2 : compileStep (CompileState.mk true (p ++ [92]) m sp) c =
          CompileState.mk false ((p ++ [92]) ++ [c]) m sp := by
        simp [compileStep, hc]
      simp only [esc, hc, if_true, List.foldl_cons, h1, h2, ih]
      simp
    · have h1 : compileStep (CompileState.mk false p m sp) c =
          CompileState.mk false (p ++ [c]) m sp := by
        simp [compileStep, hc]
      simp only [esc, hc, if_false, List.foldl_cons, h1, ih]
      simp

theorem getSubExprs_foldl_esc (w : List Nat) :
    ∀ (e : List Nat) (r : List subExpression),
      (esc w).foldl getSubExprsStep (SubExprState.mk false e r) =
        SubExprState.mk false (e ++ w) r := by
  induction w with
  | nil => intro e r; simp [esc]
  | cons c t ih =>
    intro e r
    by_cases hc : c = 42 ∨ c = 63 ∨ c = 92
    · have h1 : getSubExprsStep (SubExprState.mk false e r) 92 =
          SubExprState.mk true e r := by
        simp [getSubExprsStep]
      have h2 : getSubExprsStep (SubExprState.mk true e r) c =
          SubExprState.mk false (e ++ [c]) r := by
        simp [getSubExprsStep, hc]
      simp only [esc, hc, if_true, List.foldl_cons, h1, h2, ih]
      simp
    · have h1 : getSubExprsStep (SubExprState.mk false e r) c =
          SubExprState.mk false (e ++ [c]) r := by
        simp [getSubExprsStep, hc]
      simp only [esc, hc, if_false, List.foldl_cons, h1, ih]
      simp

theorem esc_ne_nil (w : List Nat) (hne : w ≠ []) : esc w ≠ [] := by
  cases w with
  | nil => exact absurd rfl hne
  | cons c t =>
    unfold esc
    split_ifs <;> simp

/-- An escaped non-empty text compiles to one `matchFull` segment whose
only sub-expression is the text itself. -/
theorem compile_esc (w : List Nat) (hne : w ≠ []) :
    compile (esc w) =
      [subPattern.mk (esc w) [subExpression.mk w Mode.matchStart] Mode.matchFull] := by
  have hpos : 0 < (esc w).length := List.length_pos.mpr (esc_ne_nil w hne)
  have hposw : 0 < w.length := List.length_pos.mpr hne
  unfold compile
  rw [compile_foldl_esc]
  simp only [List.nil_append, gt_iff_lt, hpos, if_true]
  unfold getSubExprs
  rw [getSubExprs_foldl_esc]
  simp [hposw]

/-- A plain text followed by one `\` compiles to one `matchFull` segment
whose only sub-expression is that text with the `\`. -/
theorem compile_trailing_backslash (w : List Nat) (hw : noSpecial w) :
    compile (w ++ [92]) =
      [subPattern.mk (w ++ [92]) [subExpression.mk (w ++ [92]) Mode.matchStart]
        Mode.matchFull] := by
  have hstar : ∀ c ∈ w ++ [92], c ≠ 42 := by
    intro c hc
    rcases List.mem_append.mp hc with h | h
    · exact (hw c h).1
    · simp only [List.mem_singleton] at h
      omega
  rw [compile_noStar _ hstar (by simp)]
  unfold getSubExprs
  rw [List.foldl_append, getSubExprs_foldl_plain w [] [] hw]
  simp [getSubExprsStep]

/-! ## Consecutive `*` -/

theorem compileStep_escape_false (st : CompileState) (c : Nat)
    (he : st.escape = false) (hc : c ≠ 92) : (compileStep st c).escape = false := by
  unfold compileStep
  split_ifs <;> simp_all

theorem compile_foldl_escape_false (a : List Nat) :
    ∀ st : CompileState, st.escape = false → (∀ c ∈ a, c ≠ 92) →
      (a.foldl compileStep st).escape = false := by
  induction a with
  | nil => intro st he _; simpa using he
  | cons c t ih =>
    intro st he ha
    rw [List.foldl_cons]
    exact ih _ (compileStep_escape_false st c he (ha c (List.mem_cons_self c t)))
      (fun d hd => ha d (List.mem_cons_of_mem c hd))

/-- Outside an escape a second `*` changes nothing. -/
theorem compileStep_star_twice (st : CompileState) (he : st.escape = false) :
    compileStep (compileStep st 42) 42 = compileStep st 42 := by
  by_cases hp : st.patt = []
  · simp [compileStep, he, hp]
  · simp [compileStep, he, hp]

theorem compile_double_star (a b : List Nat) (ha : ∀ c ∈ a, c ≠ 92) :
    compile (a ++ [42, 42] ++ b) = compile (a ++ [42] ++ b) := by
  have he := compile_foldl_escape_false a (CompileState.mk false [] Mode.matchStart []) rfl ha
  unfold compile
  simp only [List.foldl_append, List.foldl_cons, List.foldl_nil]
  rw [compileStep_star_twice _ he]

/-! ## Characterisation of `equal` -/

theorem foldCase_eq_iff (c bi : Nat) :
    foldCase c bi = bi ↔ c = bi ∨ sameLetterOtherCase c bi := by
  unfold foldCase sameLetterOtherCase isAsciiLetter asciiLower
  split_ifs <;> omega

theorem foldCase_plain (c bi : Nat) :
    foldCase c bi =
      if c > bi ∧ c ≥ 97 ∧ c ≤ 122 then c - 97 + 65
      else if c < bi ∧ c ≥ 65 ∧ c ≤ 90 then c - 65 + 97
      else c := by
  unfold foldCase
  split_ifs <;> omega

theorem all_zip_iff_index (P : Nat → Nat → Prop) [∀ x y, Decidable (P x y)] (a : List Nat) :
    ∀ b : List Nat, a.length = b.length →
      ((a.zip b).all (fun p => decide (P p.1 p.2)) = true ↔
        ∀ i, i < a.length → P (a.getD i 0) (b.getD i 0)) := by
  induction a with
  | nil =>
    intro b _
    simp
  | cons x xs ih =>
    intro b hb
    cases b with
    | nil => simp at hb
    | cons y ys =>
      have hlen : xs.length = ys.length := by simpa using hb
      simp only [List.zip_cons_cons, List.all_cons, Bool.and_eq_true, decide_eq_true_eq,
        ih ys hlen, List.length_cons]
      constructor
      · rintro ⟨h0, hrest⟩ i hi
        cases i with
        | zero => simpa using h0
        | succ j =>
          have hj : j < xs.length := by omega
          simpa using hrest j hj
      · intro h
        refine ⟨by simpa using h 0 (by omega), ?_⟩
        intro j hj
        simpa using h (j + 1) (by omega)

/-! ## Modes of the compiled segments -/

theorem rolesInv_step (st : CompileState) (c : Nat) (h : rolesInv st) :
    rolesInv (compileStep st c) := by
  unfold compileStep
  split_ifs with h1 h2 h3 h4 h5
  · exact h
  · exact h
  · rcases h with ⟨hm, hs⟩ | ⟨hm, hs, k, hk⟩
    · right
      refine ⟨rfl, true, 0, ?_⟩
      simp [hs, hm, startThenAny]
    · right
      refine ⟨rfl, hs, k + 1, ?_⟩
      simp only [List.map_append, hk, List.map_cons, List.map_nil, hm, startThenAny,
        List.replicate_succ', List.append_assoc]
  · rcases h with ⟨_, hs⟩ | ⟨_, hs, k, hk⟩
    · right
      exact ⟨rfl, false, 0, by simp [hs, startThenAny]⟩
    · right
      exact ⟨rfl, hs, k, hk⟩
  · exact h
  · exact h

theorem rolesInv_foldl (w : List Nat) :
    ∀ st : CompileState, rolesInv st → rolesInv (w.foldl compileStep st) := by
  induction w with
  | nil => intro st h; exact h
  | cons c t ih =>
    intro st h
    rw [List.foldl_cons]
    exact ih _ (rolesInv_step st c h)

/-- Shape of the modes of a compiled pattern. -/
theorem roles_shape (pattern : List Nat) :
    roles pattern = [Mode.matchFull] ∨
      ∃ (hasStart : Bool) (k : Nat),
        roles pattern = startThenAny hasStart k ∨
          roles pattern = startThenAny hasStart k ++ [Mode.matchEnd] := by
  have hinv := rolesInv_foldl pattern (CompileState.mk false [] Mode.matchStart [])
    (Or.inl ⟨rfl, rfl⟩)
  unfold roles compile
  simp only
  generalize pattern.foldl compileStep (CompileState.mk false [] Mode.matchStart []) = st at hinv
  rcases hinv with ⟨hm, hs⟩ | ⟨hm, hs, k, hk⟩
  · split_ifs
    · left
      simp [hm, hs]
    · right
      exact ⟨false, 0, Or.inl (by simp [hs, startThenAny])⟩
  · right
    refine ⟨hs, k, ?_⟩
    split_ifs
    · right
      simp [hm, hk]
    · left
      exact hk

theorem mem_startThenAny (hasStart : Bool) (k : Nat) (m : Mode)
    (h : m ∈ startThenAny hasStart k) : m = Mode.matchStart ∨ m = Mode.matchAny := by
  unfold startThenAny at h
  rcases List.mem_append.mp h with h1 | h1
  · left
    cases hasStart <;> simp_all
  · right
    exact List.eq_of_mem_replicate h1

theorem startThenAny_index (hasStart : Bool) (k i : Nat)
    (h : (startThenAny hasStart k)[i]? = some Mode.matchStart) : i = 0 := by
  cases i with
  | zero => rfl
  | succ j =>
    exfalso
    cases hasStart with
    | false =>
      have hmem : Mode.matchStart ∈ List.replicate k Mode.matchAny := by
        have h2 : (List.replicate k Mode.matchAny)[j + 1]? = some Mode.matchStart := by
          simpa [startThenAny] using h
        exact List.getElem?_mem h2
      have := List.eq_of_mem_replicate hmem
      cases this
    | true =>
      have h2 : (List.replicate k Mode.matchAny)[j]? = some Mode.matchStart := by
        simpa [startThenAny] using h
      have hmem := List.getElem?_mem h2
      have := List.eq_of_mem_replicate hmem
      cases this

/-! ## Order of the sub-expressions -/

/-- The method `getSubExprs` in terms of the final loop state. -/
theorem getSubExprs_eq (w : List Nat) :
    getSubExprs w =
      if (pendingLiteral (w.foldl getSubExprsStep (SubExprState.mk false [] []))).length > 0
      then (w.foldl getSubExprsStep (SubExprState.mk false [] [])).result ++
        [subExpression.mk (pendingLiteral (w.foldl getSubExprsStep (SubExprState.mk false [] [])))
          Mode.matchStart]
      else (w.foldl getSubExprsStep (SubExprState.mk false [] [])).result := rfl

theorem resultInv_wildcard (r : List subExpression)
    (h : List.Chain' literalThenWildcard r) :
    resultInv (r ++ [subExpression.mk [] Mode.matchOne]) := by
  constructor
  · apply List.Chain'.append h (List.chain'_singleton _)
    intro x _ y hy _
    simp only [List.head?_cons, Option.mem_def, Option.some.injEq] at hy
    rw [← hy]
  · intro x hx
    rw [List.getLast?_concat] at hx
    simp only [Option.mem_def, Option.some.injEq] at hx
    rw [← hx]

theorem chain_literal (r : List subExpression) (e : subExpression) (h : resultInv r) :
    List.Chain' literalThenWildcard (r ++ [e]) := by
  apply List.Chain'.append h.1 (List.chain'_singleton _)
  intro x hx y _ hstart
  have hone := h.2 x hx
  rw [hone] at hstart
  cases hstart

theorem resultInv_step (st : SubExprState) (c : Nat) (h : resultInv st.result) :
    resultInv (getSubExprsStep st c).result := by
  unfold getSubExprsStep
  split_ifs with h1 h2 h3 h4 h5
  · exact h
  · exact h
  · exact resultInv_wildcard _ (chain_literal _ _ h)
  · exact resultInv_wildcard _ h.1
  · exact h
  · exact h
  · exact h

theorem resultInv_foldl (w : List Nat) :
    ∀ st : SubExprState, resultInv st.result →
      resultInv (w.foldl getSubExprsStep st).result := by
  induction w with
  | nil => intro st h; exact h
  | cons c t ih =>
    intro st h
    rw [List.foldl_cons]
    exact ih _ (resultInv_step st c h)

theorem getSubExprs_chain (w : List Nat) :
    List.Chain' literalThenWildcard (getSubExprs w) := by
  have hinv := resultInv_foldl w (SubExprState.mk false [] [])
    ⟨List.chain'_nil, by intro x hx; simp at hx⟩
  rw [getSubExprs_eq]
  split_ifs
  · exact chain_literal _ _ hinv
  · exact hinv.1

/-! ## Non-emptiness in the compiled pattern -/

theorem wellFormed_step (st : SubExprState) (c : Nat)
    (h : ∀ e ∈ st.result, wellFormedSubExpr e) :
    ∀ e ∈ (getSubExprsStep st c).result, wellFormedSubExpr e := by
  unfold getSubExprsStep
  split_ifs with h1 h2 h3 h4 h5
  · exact h
  · exact h
  · intro e he
    simp only [List.append_assoc, List.singleton_append, List.mem_append, List.mem_cons,
      List.mem_singleton, List.not_mem_nil, or_false] at he
    rcases he with he | he | he
    · exact h e he
    · rw [he]
      exact Or.inl ⟨rfl, h5⟩
    · rw [he]
      exact Or.inr ⟨rfl, rfl⟩
  · intro e he
    simp only [List.mem_append, List.mem_singleton] at he
    rcases he with he | he
    · exact h e he
    · rw [he]
      exact Or.inr ⟨rfl, rfl⟩
  · exact h
  · exact h
  · exact h

theorem wellFormed_foldl (w : List Nat) :
    ∀ st : SubExprState, (∀ e ∈ st.result, wellFormedSubExpr e) →
      ∀ e ∈ (w.foldl getSubExprsStep st).result, wellFormedSubExpr e := by
  induction w with
  | nil => intro st h; exact h
  | cons c t ih =>
    intro st h
    rw [List.foldl_cons]
    exact ih _ (wellFormed_step st c h)

/-- Every entry of `getSubExprs` is a non-empty literal or a wildcard
without bytes. -/
theorem getSubExprs_wellFormed (w : List Nat) :
    ∀ e ∈ getSubExprs w, wellFormedSubExpr e := by
  have hinv := wellFormed_foldl w (SubExprState.mk false [] [])
    (by intro e he; simp at he)
  rw [getSubExprs_eq]
  split_ifs with hpos
  · intro e he
    simp only [List.mem_append, List.mem_singleton] at he
    rcases he with he | he
    · exact hinv e he
    · rw [he]
      exact Or.inl ⟨rfl, List.length_pos.mp hpos⟩
  · exact hinv

theorem productive_step (st : SubExprState) (c : Nat) (h : productive st) :
    productive (getSubExprsStep st c) := by
  unfold getSubExprsStep productive
  unfold productive at h
  split_ifs <;> simp_all

theorem productive_foldl (w : List Nat) :
    ∀ st : SubExprState, productive st → productive (w.foldl getSubExprsStep st) := by
  induction w with
  | nil => intro st h; exact h
  | cons c t ih =>
    intro st h
    rw [List.foldl_cons]
    exact ih _ (productive_step st c h)

theorem productive_first (c : Nat) (hc : c ≠ 42) :
    productive (getSubExprsStep (SubExprState.mk false [] []) c) := by
  unfold getSubExprsStep productive
  split_ifs <;> simp_all

/-- A good text has at least one sub-expression. -/
theorem getSubExprs_ne_nil (w : List Nat) (hw : goodText w) : getSubExprs w ≠ [] := by
  cases w with
  | nil => exact absurd rfl hw.1
  | cons c t =>
    have hc : c ≠ 42 := hw.2 c rfl
    have hprod := productive_foldl t _ (productive_first c hc)
    rw [getSubExprs_eq, List.foldl_cons]
    generalize t.foldl getSubExprsStep (getSubExprsStep (SubExprState.mk false [] []) c) = st
      at hprod
    unfold productive at hprod
    unfold pendingLiteral
    split_ifs with he hpos hpos
    · simp
    · simp [he] at hpos
    · simp
    · rcases hprod with h | h | h
      · exact h
      · exact absurd (List.length_pos.mpr h) hpos
      · exact absurd h he

theorem head_append_singleton (patt : List Nat) (c : Nat)
    (hhead : ∀ d, patt.head? = some d → d ≠ 42) (hc : patt = [] → c ≠ 42) :
    ∀ d, (patt ++ [c]).head? = some d → d ≠ 42 := by
  intro d hd
  cases patt with
  | nil =>
    simp only [List.nil_append, List.head?_cons, Option.some.injEq] at hd
    rw [← hd]
    exact hc rfl
  | cons a t =>
    exact hhead d (by simpa using hd)

theorem compileInv_step (st : CompileState) (c : Nat) (h : compileInv st) :
    compileInv (compileStep st c) := by
  obtain ⟨hesc, hhead, hsub⟩ := h
  unfold compileStep
  split_ifs with h1 h2 h3 h4 h5
  · have hne : st.patt ≠ [] := by
      intro hp
      have := hesc hp
      rw [h2] at this
      cases this
    exact ⟨by intro hp; simp at hp,
      head_append_singleton _ _ hhead (fun hp => absurd hp hne), hsub⟩
  · exact ⟨by intro hp; simp at hp,
      head_append_singleton _ _ hhead (fun _ => by omega), hsub⟩
  · refine ⟨fun _ => rfl, by intro d hd; simp at hd, ?_⟩
    intro sp hsp
    simp only [List.mem_append, List.mem_singleton] at hsp
    rcases hsp with hsp | hsp
    · exact hsub sp hsp
    · rw [hsp]
      exact ⟨⟨h5, hhead⟩, rfl⟩
  · exact ⟨fun _ => rfl, hhead, hsub⟩
  · exact ⟨fun _ => rfl, head_append_singleton _ _ hhead (fun _ => h4), hsub⟩
  · exact ⟨by intro hp; simp at hp,
      head_append_singleton _ _ hhead (fun _ hc => h1 (Or.inl hc)), hsub⟩

theorem compileInv_foldl (w : List Nat) :
    ∀ st : CompileState, compileInv st → compileInv (w.foldl compileStep st) := by
  induction w with
  | nil => intro st h; exact h
  | cons c t ih =>
    intro st h
    rw [List.foldl_cons]
    exact ih _ (compileInv_step st c h)

/-- Every segment of a compiled pattern has a good text and carries the
sub-expressions of that text. -/
theorem compile_segments (pattern : List Nat) :
    ∀ sp ∈ compile pattern, goodText sp.patt ∧ sp.subExprs = getSubExprs sp.patt := by
  have hinv := compileInv_foldl pattern (CompileState.mk false [] Mode.matchStart [])
    ⟨fun _ => rfl, by intro d hd; simp at hd, by intro sp hsp; simp at hsp⟩
  unfold compile
  simp only
  generalize pattern.foldl compileStep (CompileState.mk false [] Mode.matchStart []) = st
    at hinv
  obtain ⟨_, hhead, hsub⟩ := hinv
  split_ifs with hpos
  · intro sp hsp
    simp only [List.mem_append, List.mem_singleton] at hsp
    rcases hsp with hsp | hsp
    · exact hsub sp hsp
    · rw [hsp]
      exact ⟨⟨List.length_pos.mp hpos, hhead⟩, rfl⟩
  · exact hsub

/-! ## The checked matcher agrees with the matcher -/

theorem sliceTo_of_le (b : List Nat) (n : Nat) (h : n ≤ b.length) :
    sliceTo b n = some (b.take n) := by
  simp [sliceTo, h]

theorem sliceFrom_of_le (b : List Nat) (n : Nat) (h : n ≤ b.length) :
    sliceFrom b n = some (b.drop n) := by
  simp [sliceFrom, h]

theorem equalLoopChecked_eq (cm : Bool) (b : List Nat) (a : List Nat) :
    ∀ i : Nat, a.length + i ≤ b.length →
      equalLoopChecked cm b a i =
        some (if cm then (a.zip (b.drop i)).all (fun p => decide (p.1 = p.2))
          else (a.zip (b.drop i)).all (fun p => decide (foldCase p.1 p.2 = p.2))) := by
  induction a with
  | nil =>
    intro i _
    cases cm <;> simp [equalLoopChecked]
  | cons c rest ih =>
    intro i hi
    simp only [List.length_cons] at hi
    have hlt : i < b.length := by omega
    have hget : b.get? i = some b[i] := by
      rw [List.get?_eq_getElem?]
      exact List.getElem?_eq_getElem hlt
    have hdrop : b.drop i = b[i] :: b.drop (i + 1) := List.drop_eq_getElem_cons hlt
    have hrec := ih (i + 1) (by omega)
    unfold equalLoopChecked
    rw [hget, hdrop]
    simp only [hrec]
    cases cm with
    | true =>
      by_cases hc : c = b[i]
      · simp only [hc, if_true, ne_eq, not_true_eq_false, if_false, List.zip_cons_cons,
          List.all_cons, decide_True, Bool.true_and]
      · simp only [hc, if_true, ne_eq, not_false_eq_true, List.zip_cons_cons,
          List.all_cons, decide_False, Bool.false_and]
    | false =>
      by_cases hc : foldCase c b[i] = b[i]
      · simp only [hc, Bool.false_eq_true, if_false, ne_eq, not_true_eq_false,
          List.zip_cons_cons, List.all_cons, decide_True, Bool.true_and]
      · simp only [hc, Bool.false_eq_true, if_false, ne_eq, not_false_eq_true, if_true,
          List.zip_cons_cons, List.all_cons, decide_False, Bool.false_and]

/-- In `equal` the index `b[i]` is always in range. -/
theorem equalChecked_eq (a b : List Nat) (cm : Bool) :
    equalChecked a b cm = some (equal a b cm) := by
  unfold equalChecked equal
  by_cases hlen : a.length = b.length
  · have h := equalLoopChecked_eq cm b a 0 (by omega)
    simp only [List.drop_zero] at h
    simp only [hlen, ne_eq, not_true_eq_false, if_false]
    rw [h]
  · simp [hlen]

/-- In `hasPrefix` every slice is in range. -/
theorem hasPrefixChecked_eq (cm : Bool) (E : List subExpression) :
    ∀ b : List Nat, hasPrefixChecked cm b E = some (hasPrefix cm b E) := by
  induction E with
  | nil => intro b; rfl
  | cons sub rest ih =>
    intro b
    unfold hasPrefixChecked hasPrefix
    cases hm : sub.mode with
    | matchStart =>
      simp only
      by_cases hlen : b.length < sub.expr.length
      · simp [hlen]
      · have hle : sub.expr.length ≤ b.length := by omega
        rw [sliceTo_of_le b _ hle, sliceFrom_of_le b _ hle]
        simp only [hlen, if_false, equalChecked_eq, false_or]
        cases heq : equal (List.take sub.expr.length b) sub.expr cm with
        | true => simp [ih]
        | false => simp
    | matchOne =>
      simp only
      by_cases hlen : b.length = 0
      · simp [hlen]
      · rw [sliceFrom_of_le b _ (DecodeRuneSize_le b)]
        simp [hlen, ih]
    | matchAny => simp only [ih]
    | matchEnd => simp only [ih]
    | matchFull => simp only [ih]

/-- In the scan of `hasMidfix` every slice and `b[0]` are in range; only
`sub.expr[0]` may fail, as in `midfixScan`. -/
theorem midfixScanChecked_eq (cm : Bool) (expr : List Nat) :
    ∀ b : List Nat, midfixScanChecked cm expr b = midfixScan cm expr b := by
  intro b
  induction b with
  | nil => rfl
  | cons b0 bs ih =>
    unfold midfixScanChecked midfixScan
    cases expr with
    | nil => rfl
    | cons e0 et =>
      simp only [List.get?_cons_zero]
      by_cases h0 : b0 = e0
      · subst h0
        rw [if_pos rfl, if_pos rfl]
        by_cases hlen : (b0 :: bs).length < (b0 :: et).length
        · rw [if_pos hlen, if_pos hlen]
        · have hle : (b0 :: et).length ≤ (b0 :: bs).length := by omega
          rw [if_neg hlen, if_neg hlen, sliceTo_of_le _ _ hle, sliceFrom_of_le _ _ hle]
          simp only [equalChecked_eq]
          cases heq : equal (List.take (b0 :: et).length (b0 :: bs)) (b0 :: et) cm with
          | true => simp
          | false => simp [ih]
      · rw [if_neg h0, if_neg h0, ih]

theorem hasMidfixChecked_eq (cm : Bool) (E : List subExpression) :
    ∀ b : List Nat, hasMidfixChecked cm b E = hasMidfix cm b E := by
  induction E with
  | nil => intro b; rfl
  | cons sub rest ih =>
    intro b
    unfold hasMidfixChecked hasMidfix
    cases hm : sub.mode with
    | matchStart =>
      simp only [midfixScanChecked_eq]
      cases midfixScan cm sub.expr b with
      | outOfRange => rfl
      | fail => rfl
      | next r => simp only [ih]
    | matchOne =>
      simp only
      by_cases hlen : b.length = 0
      · simp [hlen]
      · rw [sliceFrom_of_le b _ (DecodeRuneSize_le b)]
        simp [hlen, ih]
    | matchAny => simp only [ih]
    | matchEnd => simp only [ih]
    | matchFull => simp only [ih]

/-- In `hasSuffix` every slice is in range. -/
theorem hasSuffixLoopChecked_eq (cm : Bool) (E : List subExpression) :
    ∀ b : List Nat, hasSuffixLoopChecked cm b E = some (hasSuffixLoop cm b E) := by
  induction E with
  | nil => intro b; rfl
  | cons sub rest ih =>
    intro b
    unfold hasSuffixLoopChecked hasSuffixLoop
    cases hm : sub.mode with
    | matchStart =>
      simp only
      by_cases hlen : b.length < sub.expr.length
      · simp [hlen]
      · have hle : b.length - sub.expr.length ≤ b.length := by omega
        rw [sliceTo_of_le b _ hle, sliceFrom_of_le b _ hle]
        simp only [hlen, if_false, equalChecked_eq, false_or]
        cases heq : equal (List.drop (b.length - sub.expr.length) b) sub.expr cm with
        | true => simp [ih]
        | false => simp
    | matchOne =>
      simp only
      by_cases hlen : b.length = 0
      · simp [hlen]
      · have hsz : ¬ b.length < DecodeRuneSize b := by
          have := DecodeRuneSize_le b
          omega
        have hle : b.length - DecodeRuneSize b ≤ b.length := by omega
        rw [sliceTo_of_le b _ hle]
        simp [hlen, hsz, ih]
    | matchAny => simp only [ih]
    | matchEnd => simp only [ih]
    | matchFull => simp only [ih]

theorem matchLoopChecked_eq (cm : Bool) (sps : List subPattern) :
    ∀ b : List Nat, matchLoopChecked cm sps b = matchLoop cm sps b := by
  induction sps with
  | nil => intro b; rfl
  | cons sp rest ih =>
    intro b
    unfold matchLoopChecked matchLoop
    cases hm : sp.mode with
    | matchStart =>
      simp only [hasPrefixChecked_eq]
      rcases hasPrefix cm b sp.subExprs with ⟨ok, r⟩
      cases ok <;> simp [ih]
    | matchAny =>
      simp only [hasMidfixChecked_eq]
      cases hasMidfix cm b sp.subExprs with
      | none => rfl
      | some res =>
        rcases res with ⟨ok, r⟩
        cases ok <;> simp [ih]
    | matchEnd =>
      simp only [hasSuffixChecked, hasSuffix, hasSuffixLoopChecked_eq]
    | matchFull =>
      simp only [sameChecked, same, hasPrefixChecked_eq]
    | matchOne => simp only [ih]

/-! ## No panic on a compiled pattern -/

theorem midfixScan_inRange (cm : Bool) (expr : List Nat) (hne : expr ≠ []) :
    ∀ b : List Nat, midfixScan cm expr b ≠ ScanResult.outOfRange := by
  intro b
  induction b with
  | nil =>
    unfold midfixScan
    intro h
    cases h
  | cons b0 bs ih =>
    cases expr with
    | nil => exact absurd rfl hne
    | cons e0 et =>
      unfold midfixScan
      simp only
      split_ifs
      · intro h
        cases h
      · intro h
        cases h
      · exact ih
      · exact ih

theorem hasMidfix_isSome (cm : Bool) (E : List subExpression) :
    (∀ e ∈ E, e.mode = Mode.matchStart → e.expr ≠ []) →
      ∀ b : List Nat, ∃ r, hasMidfix cm b E = some r := by
  induction E with
  | nil =>
    intro _ b
    exact ⟨(true, b), rfl⟩
  | cons sub rest ih =>
    intro hE b
    have hrest := ih (fun e he => hE e (List.mem_cons_of_mem sub he))
    unfold hasMidfix
    cases hm : sub.mode with
    | matchStart =>
      have hne : sub.expr ≠ [] := hE sub (List.mem_cons_self sub rest) hm
      have hscan := midfixScan_inRange cm sub.expr hne b
      simp only
      cases hres : midfixScan cm sub.expr b with
      | outOfRange => exact absurd hres hscan
      | fail => exact ⟨(false, []), rfl⟩
      | next r => exact hrest r
    | matchOne =>
      simp only
      split_ifs
      · exact ⟨(false, []), rfl⟩
      · exact hrest _
    | matchAny => exact hrest b
    | matchEnd => exact hrest b
    | matchFull => exact hrest b

theorem matchLoop_isSome (cm : Bool) (sps : List subPattern) :
    (∀ sp ∈ sps, ∀ e ∈ sp.subExprs, e.mode = Mode.matchStart → e.expr ≠ []) →
      ∀ b : List Nat, ∃ r, matchLoop cm sps b = some r := by
  induction sps with
  | nil =>
    intro _ b
    exact ⟨true, rfl⟩
  | cons sp rest ih =>
    intro hsps b
    have hrest := ih (fun q hq => hsps q (List.mem_cons_of_mem sp hq))
    unfold matchLoop
    cases hm : sp.mode with
    | matchStart =>
      simp only
      rcases hasPrefix cm b sp.subExprs with ⟨ok, r⟩
      cases ok with
      | true => exact hrest r
      | false => exact ⟨false, rfl⟩
    | matchAny =>
      simp only
      obtain ⟨res, hres⟩ := hasMidfix_isSome cm sp.subExprs
        (hsps sp (List.mem_cons_self sp rest)) b
      rw [hres]
      rcases res with ⟨ok, r⟩
      cases ok with
      | true => exact hrest r
      | false => exact ⟨false, rfl⟩
    | matchEnd => exact ⟨_, rfl⟩
    | matchFull => exact ⟨_, rfl⟩
    | matchOne => exact hrest b

/-! ## Claims -/

/-- C1: for byte strings `u`, `v` without `*`, `?`, `\` (either may be
empty) and every candidate `s`, the case-sensitive one-shot match of the
pattern `u ++ "*" ++ v` is true exactly when `s = u ++ m ++ v` for some
byte string `m`. -/
theorem match_star_between_literals (u v s : List Nat)
    (hu : noSpecial u) (hv : noSpecial v) :
    Match (u ++ [42] ++ v) s true = some true ↔ ∃ m, s = u ++ m ++ v := by
  unfold Match Glob.Match Compile
  simp only
  rw [compile_star_between u v hu hv]
  by_cases hue : u = []
  · by_cases hve : v = []
    · subst hue; subst hve
      simp [matchLoop]
    · subst hue
      simp only [ne_eq, not_true_eq_false, if_false, hve, not_false_eq_true, if_true,
        List.nil_append, matchLoop, hasSuffix_literal, Option.some.injEq, decide_eq_true_eq,
        drop_eq_iff_suffix]
      constructor
      · rintro ⟨t, ht⟩
        exact ⟨t, ht.symm⟩
      · rintro ⟨m, hm⟩
        exact ⟨m, hm.symm⟩
  · by_cases hve : v = []
    · subst hve
      simp only [ne_eq, hue, not_false_eq_true, if_true, not_true_eq_false, if_false,
        List.append_nil, List.singleton_append, matchLoop, hasPrefix_literal]
      by_cases hp : s.take u.length = u
      · simp only [hp, if_true, true_iff]
        have hs := List.take_append_drop u.length s
        rw [hp] at hs
        exact ⟨s.drop u.length, hs.symm⟩
      · simp only [hp, if_false]
        constructor
        · intro h
          cases h
        · rintro ⟨m, hm⟩
          exact absurd (by rw [hm]; simp) hp
    · simp only [ne_eq, hue, not_false_eq_true, if_true, hve, List.singleton_append,
        matchLoop, hasPrefix_literal]
      by_cases hp : s.take u.length = u
      · simp only [hp, if_true, hasSuffix_literal, Option.some.injEq, decide_eq_true_eq,
          drop_eq_iff_suffix]
        constructor
        · rintro ⟨t, ht⟩
          refine ⟨t, ?_⟩
          have hs := List.take_append_drop u.length s
          rw [hp] at hs
          rw [List.append_assoc, ht]
          exact hs.symm
        · rintro ⟨m, hm⟩
          refine ⟨m, ?_⟩
          rw [hm]
          simp
      · simp only [hp, if_false]
        constructor
        · intro h
          cases h
        · rintro ⟨m, hm⟩
          exact absurd (by rw [hm]; simp) hp

/-- Witness of C1: `a*c` and the candidate `abc`, which is `a ++ b ++ c`. -/
theorem match_star_between_literals_witness :
    noSpecial [97] ∧ noSpecial [99] ∧
      (Match ([97] ++ [42] ++ [99]) [97, 98, 99] true = some true ↔
        ∃ m, [97, 98, 99] = [97] ++ m ++ [99]) :=
  ⟨by decide, by decide,
    match_star_between_literals [97] [99] [97, 98, 99] (by decide) (by decide)⟩

/-- C2, the code at a failing input: the pattern `*abc*` accepts the
candidate `xyz`, which does not contain `abc`; the scan of `hasMidfix`
runs off the end of the candidate and reports success. -/
theorem floating_literal_not_found :
    Match [42, 97, 98, 99, 42] [120, 121, 122] true = some true ∧
      ¬ ([97, 98, 99] <:+: [120, 121, 122]) := by
  decide

/-- C3, counterexample: the pattern `\\` (two backslashes) has no wildcard
byte, yet its compiled form does not match the pattern text itself. -/
theorem literal_self_match_counterexample :
    noWildcard [92, 92] ∧ (Compile [92, 92]).MatchString [92, 92] = some false := by
  decide

/-- C3, amended: for every non-empty pattern `p` without `*` and `?`, the
compiled pattern rejects `p` followed by one more byte, and it accepts `p`
itself when `p` has no two consecutive backslashes. -/
theorem literal_pattern_exact (p : List Nat) (x : Nat) (hw : noWildcard p) (hne : p ≠ []) :
    (Compile p).MatchString (p ++ [x]) = some false ∧
      (noDoubleBackslash p → (Compile p).MatchString p = some true) := by
  have hstar : ∀ c ∈ p, c ≠ 42 := fun c hc => (hw c hc).1
  have hq : ∀ c ∈ p, c ≠ 63 := fun c hc => (hw c hc).2
  have hrun : ∀ s, (Compile p).MatchString s = some (same false s (getSubExprs p)) := by
    intro s
    unfold Glob.MatchString Compile
    simp only
    rw [compile_noStar p hstar hne]
    simp [matchLoop]
  constructor
  · rw [hrun]
    rcases getSubExprs_noQuestion p hq with h0 | ⟨l, hl, h1⟩
    · rw [h0]
      simp [same, hasPrefix]
    · rw [h1]
      simp only [same, hasPrefix]
      split_ifs with hc
      · simp
      · simp only [Bool.true_and, Option.some.injEq, decide_eq_false_iff_not,
          List.length_drop, List.length_append, List.length_singleton]
        omega
  · intro hd
    rw [hrun, getSubExprs_literal p hw hd hne]
    simp [same, hasPrefix, equal_refl]

/-- Witness of the amended C3 at the pattern `a\b` and the byte `x`. -/
theorem literal_pattern_exact_witness :
    noWildcard [97, 92, 98] ∧ [97, 92, 98] ≠ [] ∧ noDoubleBackslash [97, 92, 98] ∧
      (Compile [97, 92, 98]).MatchString ([97, 92, 98] ++ [120]) = some false ∧
      (Compile [97, 92, 98]).MatchString [97, 92, 98] = some true :=
  ⟨by decide, by decide, by simp [noDoubleBackslash],
    (literal_pattern_exact [97, 92, 98] 120 (by decide) (by decide)).1,
    (literal_pattern_exact [97, 92, 98] 120 (by decide) (by decide)).2
      (by simp [noDoubleBackslash])⟩

/-- C4, the code at a failing input: the empty pattern compiles to no
segment at all, so it accepts every candidate in both case modes; its
compiled form accepts the non-empty candidate `a`. -/
theorem empty_pattern_accepts_nonempty :
    compile [] = [] ∧ (∀ (s : List Nat) (cm : Bool), Match [] s cm = some true) ∧
      (Compile []).Match [97] = some true :=
  ⟨rfl, fun _ _ => rfl, rfl⟩

/-- C5: a pattern of `n ≥ 1` bytes `*` matches every candidate, the empty
one included, in either case mode. -/
theorem stars_match_everything (n : Nat) (s : List Nat) (cm : Bool) (_hn : 1 ≤ n) :
    Match (List.replicate n 42) s cm = some true := by
  unfold Match Glob.Match Compile
  simp only
  rw [compile_stars n]
  rfl

/-- Witness of C5: `**` matches the empty candidate. -/
theorem stars_match_everything_witness :
    1 ≤ 2 ∧ Match (List.replicate 2 42) [] false = some true :=
  ⟨by decide, stars_match_everything 2 [] false (by decide)⟩

/-- C6: a pattern of `n ≥ 1` bytes `?` matches `s` exactly when repeated
front decoding splits `s` into `n` characters with nothing left over; the
pattern `?` matches `s` exactly when `s` is non-empty and its first decoded
character spans all of `s`. -/
theorem questions_match_rune_count (n : Nat) (s : List Nat) (cm : Bool) (hn : 1 ≤ n) :
    (Match (List.replicate n 63) s cm = some true ↔ runeCount s = n) ∧
      (Match [63] s cm = some true ↔ s ≠ [] ∧ DecodeRuneSize s = s.length) := by
  have hrun : ∀ k, 1 ≤ k →
      (Match (List.replicate k 63) s cm = some true ↔ runeCount s = k) := by
    intro k hk
    have hne : List.replicate k 63 ≠ [] := by
      intro h
      have h2 := congrArg List.length h
      simp at h2
      omega
    have hstar : ∀ c ∈ List.replicate k 63, c ≠ 42 := by
      intro c hc
      rw [List.eq_of_mem_replicate hc]
      decide
    unfold Match Glob.Match Compile
    simp only
    rw [compile_noStar _ hstar hne, getSubExprs_questions]
    simp only [matchLoop, Option.some.injEq]
    exact same_questions cm k s
  refine ⟨hrun n hn, ?_⟩
  have h1 := hrun 1 (le_refl 1)
  simp only [List.replicate_one] at h1
  rw [h1]
  cases s with
  | nil => simp [runeCount_nil]
  | cons a t =>
    have hle := DecodeRuneSize_le (a :: t)
    rw [runeCount_cons]
    simp only [ne_eq, reduceCtorEq, not_false_eq_true, true_and]
    constructor
    · intro h
      have h0 : runeCount ((a :: t).drop (DecodeRuneSize (a :: t))) = 0 := by omega
      rw [runeCount_eq_zero] at h0
      have h2 := congrArg List.length h0
      simp only [List.length_drop, List.length_nil] at h2
      omega
    · intro h
      rw [h]
      simp [runeCount_nil]

/-- Witness of C6: `??` matches the two characters `é` (two bytes) and `a`. -/
theorem questions_match_rune_count_witness :
    1 ≤ 2 ∧ runeCount [195, 169, 97] = 2 ∧
      Match (List.replicate 2 63) [195, 169, 97] true = some true :=
  ⟨by decide, by decide,
    (questions_match_rune_count 2 [195, 169, 97] true (by decide)).1.mpr (by decide)⟩

/-- C7, the code at failing inputs: `hasSuffix` measures the width of a
`?` at the front of the candidate.  The pattern `*???` accepts `aé` (valid
UTF-8, two characters) and rejects `€aaa` (valid UTF-8, four characters);
the pattern `*???.txt` accepts `aé.txt`. -/
theorem suffix_questions_miscount :
    (validUTF8 [97, 195, 169] = true ∧ runeCount [97, 195, 169] = 2 ∧
        Match [42, 63, 63, 63] [97, 195, 169] true = some true) ∧
      (validUTF8 [226, 130, 172, 97, 97, 97] = true ∧
        runeCount [226, 130, 172, 97, 97, 97] = 4 ∧
        Match [42, 63, 63, 63] [226, 130, 172, 97, 97, 97] true = some false) ∧
      Match [42, 63, 63, 63, 46, 116, 120, 116] [97, 195, 169, 46, 116, 120, 116] true =
        some true := by
  decide

/-- C8: for a non-empty text `w`, the case-sensitive match of the pattern
`esc w` (a `\` before every `*`, `?`, `\` of `w`) accepts exactly the
candidate `w`. -/
theorem escaped_text_matches_itself_only (w s : List Nat) (hne : w ≠ []) :
    Match (esc w) s true = some true ↔ s = w := by
  unfold Match Glob.Match Compile
  simp only
  rw [compile_esc w hne]
  simp only [matchLoop, Option.some.injEq]
  exact same_literal s w

/-- Witness of C8 at the text `a*?\`, whose escaping is `a\*\?\\`. -/
theorem escaped_text_matches_itself_only_witness :
    [97, 42, 63, 92] ≠ [] ∧ esc [97, 42, 63, 92] = [97, 92, 42, 92, 63, 92, 92] ∧
      Match (esc [97, 42, 63, 92]) [97, 42, 63, 92] true = some true :=
  ⟨by decide, by decide,
    (escaped_text_matches_itself_only [97, 42, 63, 92] [97, 42, 63, 92] (by decide)).mpr rfl⟩

/-- C9, the code at a failing input: with `c = a` and the tail `r = *`, the
pattern `\a*` rejects the candidate `\ab` while the pattern `\\a*` accepts
it; after the lone `\` the `*` is no wildcard. -/
theorem lone_backslash_disables_star :
    Match [92, 97, 42] [92, 97, 98] true = some false ∧
      Match [92, 92, 97, 42] [92, 97, 98] true = some true := by
  decide

/-- C10: for a text `w` without `*`, `?`, `\` (possibly empty), the
case-sensitive match of the pattern `w ++ "\"` accepts exactly the
candidate `w ++ "\"`. -/
theorem trailing_backslash_is_literal (w s : List Nat) (hw : noSpecial w) :
    Match (w ++ [92]) s true = some true ↔ s = w ++ [92] := by
  unfold Match Glob.Match Compile
  simp only
  rw [compile_trailing_backslash w hw]
  simp only [matchLoop, Option.some.injEq]
  exact same_literal s (w ++ [92])

/-- Witness of C10 at the pattern `a\` of the test suite. -/
theorem trailing_backslash_is_literal_witness :
    noSpecial [97] ∧ Match ([97] ++ [92]) [97, 92] true = some true :=
  ⟨by decide, (trailing_backslash_is_literal [97] [97, 92] (by decide)).mpr rfl⟩

/-- C11, the code at a failing input: `ab` and `Ab` have the same length
and the same ASCII lower-casing, yet in case-insensitive mode the pattern
`*a*b` accepts `ab` and rejects `Ab`; the scan of `hasMidfix` compares the
first byte of a literal exactly. -/
theorem floating_first_byte_case_sensitive :
    [97, 98].length = [65, 98].length ∧
      [97, 98].map asciiLower = [65, 98].map asciiLower ∧
      Match [42, 97, 42, 98] [97, 98] false = some true ∧
      Match [42, 97, 42, 98] [65, 98] false = some false := by
  decide

/-- C12: for all strings `a` without `\` and all strings `b`, the patterns
`a ++ "**" ++ b` and `a ++ "*" ++ b` compile to the same value (same
segments with the same modes, texts and sub-expressions) and so give the
same result on every candidate in either case mode. -/
theorem double_star_same_as_single (a b : List Nat) (ha : ∀ c ∈ a, c ≠ 92) :
    Compile (a ++ [42, 42] ++ b) = Compile (a ++ [42] ++ b) ∧
      ∀ (s : List Nat) (cm : Bool),
        Match (a ++ [42, 42] ++ b) s cm = Match (a ++ [42] ++ b) s cm := by
  have h := compile_double_star a b ha
  constructor
  · unfold Compile
    rw [h]
  · intro s cm
    unfold Match Compile
    rw [h]

/-- Witness of C12 at `a**b` and `a*b` of the test suite. -/
theorem double_star_same_as_single_witness :
    (∀ c ∈ [97], c ≠ 92) ∧
      Compile ([97] ++ [42, 42] ++ [98]) = Compile ([97] ++ [42] ++ [98]) :=
  ⟨by decide, (double_star_same_as_single [97] [98] (by decide)).1⟩

/-- C15: `equal(a, b, CaseMind)` is true exactly when the lengths agree
and at every index the two bytes are identical or, only when `CaseMind` is
false, are the same ASCII letter in different case; a byte that is no
ASCII letter (all bytes from 0x80 on included) is only equal to itself;
and the byte arithmetic of the case conversion never wraps. -/
theorem equal_characterisation (a b : List Nat) (CaseMind : Bool) :
    (equal a b CaseMind = true ↔
        a.length = b.length ∧
          ∀ i, i < a.length →
            a.getD i 0 = b.getD i 0 ∨
              (CaseMind = false ∧ sameLetterOtherCase (a.getD i 0) (b.getD i 0))) ∧
      (equal a b CaseMind = true →
        ∀ i, i < a.length → ¬ isAsciiLetter (a.getD i 0) → a.getD i 0 = b.getD i 0) ∧
      (∀ c bi : Nat, foldCase c bi =
        if c > bi ∧ c ≥ 97 ∧ c ≤ 122 then c - 97 + 65
        else if c < bi ∧ c ≥ 65 ∧ c ≤ 90 then c - 65 + 97
        else c) := by
  have hmain : equal a b CaseMind = true ↔
      a.length = b.length ∧
        ∀ i, i < a.length →
          a.getD i 0 = b.getD i 0 ∨
            (CaseMind = false ∧ sameLetterOtherCase (a.getD i 0) (b.getD i 0)) := by
    unfold equal
    by_cases hlen : a.length = b.length
    · cases CaseMind with
      | true =>
        simp only [hlen, ne_eq, not_true_eq_false, if_false, if_true, true_and]
        rw [← hlen, all_zip_iff_index (fun x y => x = y) a b hlen]
        simp
      | false =>
        simp only [hlen, ne_eq, not_true_eq_false, if_false, Bool.false_eq_true, true_and]
        rw [← hlen, all_zip_iff_index (fun x y => foldCase x y = y) a b hlen]
        simp only [foldCase_eq_iff, true_and]
    · simp [hlen]
  refine ⟨hmain, ?_, foldCase_plain⟩
  intro heq i hi hnot
  rcases (hmain.mp heq).2 i hi with h | ⟨_, h⟩
  · exact h
  · exact absurd h.1 hnot

/-- C16: the modes of the segments of every compiled pattern are the empty
list, or the single mode `matchFull`, or an optional `matchStart`, then any
number of `matchAny`, then an optional `matchEnd`; so `matchStart` stands
only at index 0, `matchEnd` only at the last index and `matchFull` only as
the sole segment. -/
theorem roles_structure (pattern : List Nat) :
    (roles pattern = [] ∨ roles pattern = [Mode.matchFull] ∨
        ∃ (hasStart hasEnd : Bool) (k : Nat),
          roles pattern =
            (if hasStart then [Mode.matchStart] else []) ++ List.replicate k Mode.matchAny ++
              (if hasEnd then [Mode.matchEnd] else [])) ∧
      (∀ i : Nat, (roles pattern)[i]? = some Mode.matchStart → i = 0) ∧
      (∀ i : Nat, (roles pattern)[i]? = some Mode.matchEnd → i + 1 = (roles pattern).length) ∧
      (∀ i : Nat, (roles pattern)[i]? = some Mode.matchFull → roles pattern = [Mode.matchFull]) := by
  rcases roles_shape pattern with hfull | ⟨hs, k, hmid | hend⟩
  · rw [hfull]
    refine ⟨Or.inr (Or.inl rfl), ?_, ?_, ?_⟩
    · intro i hi
      have hmem := List.getElem?_mem hi
      simp at hmem
    · intro i hi
      have hmem := List.getElem?_mem hi
      simp at hmem
    · intro i _
      rfl
  · rw [hmid]
    refine ⟨Or.inr (Or.inr ⟨hs, false, k, by simp [startThenAny]⟩), ?_, ?_, ?_⟩
    · intro i hi
      exact startThenAny_index hs k i hi
    · intro i hi
      rcases mem_startThenAny hs k _ (List.getElem?_mem hi) with h | h <;> cases h
    · intro i hi
      rcases mem_startThenAny hs k _ (List.getElem?_mem hi) with h | h <;> cases h
  · rw [hend]
    refine ⟨Or.inr (Or.inr ⟨hs, true, k, by simp [startThenAny]⟩), ?_, ?_, ?_⟩
    · intro i hi
      rw [List.getElem?_append] at hi
      split_ifs at hi with hlt
      · exact startThenAny_index hs k i hi
      · have hmem := List.getElem?_mem hi
        simp at hmem
    · intro i hi
      rw [List.getElem?_append] at hi
      split_ifs at hi with hlt
      · rcases mem_startThenAny hs k _ (List.getElem?_mem hi) with h | h <;> cases h
      · have hlen : i - (startThenAny hs k).length < [Mode.matchEnd].length := by
          rcases List.getElem?_eq_some.mp hi with ⟨hb, _⟩
          exact hb
        simp only [List.length_singleton] at hlen
        simp only [List.length_append, List.length_singleton]
        omega
    · intro i hi
      have hmem := List.getElem?_mem hi
      rcases List.mem_append.mp hmem with h | h
      · rcases mem_startThenAny hs k _ h with h2 | h2 <;> cases h2
      · simp at h

/-- C17: in the list returned by `getSubExprs` no two literal entries are
adjacent: a literal entry at index `i` is the last entry or the entry at
index `i + 1` is a single wildcard. -/
theorem no_adjacent_literals (w : List Nat) :
    List.Chain' (fun x y => ¬ (x.mode = Mode.matchStart ∧ y.mode = Mode.matchStart))
        (getSubExprs w) ∧
      ∀ (i : Nat) (e : subExpression), (getSubExprs w)[i]? = some e →
        e.mode = Mode.matchStart →
          i + 1 = (getSubExprs w).length ∨
            ∃ e2, (getSubExprs w)[i + 1]? = some e2 ∧ e2.mode = Mode.matchOne := by
  have hchain := getSubExprs_chain w
  constructor
  · apply List.Chain'.imp _ hchain
    intro x y hxy hboth
    have hone := hxy hboth.1
    rw [hboth.2] at hone
    cases hone
  · intro i e hi hstart
    rcases List.getElem?_eq_some.mp hi with ⟨hlt, hget⟩
    by_cases hlast : i + 1 = (getSubExprs w).length
    · left
      exact hlast
    · right
      have hlt2 : i + 1 < (getSubExprs w).length := by omega
      have hrel := List.chain'_iff_get.mp hchain i (by omega)
      refine ⟨(getSubExprs w)[i + 1], ?_, ?_⟩
      · exact List.getElem?_eq_getElem hlt2
      · apply hrel
        simp only [List.get_eq_getElem]
        rw [hget]
        exact hstart

/-- C19: every segment of every compiled pattern has a non-empty text and
a non-empty list of sub-expressions; each of its sub-expressions is a
literal (`matchStart`) with at least one byte or a single wildcard
(`matchOne`) without bytes. -/
theorem compiled_segments_nonempty (pattern : List Nat) :
    ∀ sp ∈ (Compile pattern).subPatts,
      sp.patt ≠ [] ∧ sp.subExprs ≠ [] ∧
        ∀ e ∈ sp.subExprs,
          (e.mode = Mode.matchStart ∧ e.expr ≠ []) ∨
            (e.mode = Mode.matchOne ∧ e.expr = []) := by
  intro sp hsp
  obtain ⟨hgood, hsub⟩ := compile_segments pattern sp hsp
  refine ⟨hgood.1, ?_, ?_⟩
  · rw [hsub]
    exact getSubExprs_ne_nil sp.patt hgood
  · rw [hsub]
    exact getSubExprs_wellFormed sp.patt

/-- Witness of C19: the second segment of the compiled pattern `a*?b`, with
the text `?b` and the sub-expressions wildcard, literal `b`. -/
theorem compiled_segments_nonempty_witness :
    subPattern.mk [63, 98]
        [subExpression.mk [] Mode.matchOne, subExpression.mk [98] Mode.matchStart]
        Mode.matchEnd ∈ (Compile [97, 42, 63, 98]).subPatts ∧
      ([63, 98] ≠ [] ∧
        [subExpression.mk [] Mode.matchOne, subExpression.mk [98] Mode.matchStart] ≠ [] ∧
        ∀ e ∈ [subExpression.mk [] Mode.matchOne, subExpression.mk [98] Mode.matchStart],
          (e.mode = Mode.matchStart ∧ e.expr ≠ []) ∨
            (e.mode = Mode.matchOne ∧ e.expr = [])) :=
  ⟨by decide,
    compiled_segments_nonempty [97, 42, 63, 98]
      (subPattern.mk [63, 98]
        [subExpression.mk [] Mode.matchOne, subExpression.mk [98] Mode.matchStart]
        Mode.matchEnd) (by decide)⟩

/-- C13: for every pattern, every candidate and either case mode, `Match`
returns a boolean, also when every index and slice expression of the
matcher is checked against the length of its slice (`sub.expr[0]`,
`b[:len(sub.expr)]`, `b[size:]`, `b[:len(b)-size]`, `b[i]` in `equal`). -/
theorem match_never_panics (pattern b : List Nat) (casemind : Bool) :
    ∃ r : Bool, MatchChecked pattern b casemind = some r ∧
      Match pattern b casemind = some r := by
  have hlit : ∀ sp ∈ (Compile pattern).subPatts, ∀ e ∈ sp.subExprs,
      e.mode = Mode.matchStart → e.expr ≠ [] := by
    intro sp hsp e he hstart
    obtain ⟨_, hsub⟩ := compile_segments pattern sp hsp
    rw [hsub] at he
    rcases getSubExprs_wellFormed sp.patt e he with h | h
    · exact h.2
    · rw [h.1] at hstart
      cases hstart
  obtain ⟨r, hr⟩ := matchLoop_isSome casemind (Compile pattern).subPatts hlit b
  refine ⟨r, ?_, hr⟩
  unfold MatchChecked
  rw [matchLoopChecked_eq]
  exact hr

/-- C14, the code at a failing input: for the sub-expressions of `a?b` and
the candidate `axcbaxb` in case-sensitive mode, `hasPrefix` succeeds first
at the offset 4 and leaves nothing, while `hasMidfix` takes `a`, `x` at the
front, skips `c`, takes the `b` after it and leaves `axb`. -/
theorem floating_not_contiguous :
    hasPrefix true ([97, 120, 99, 98, 97, 120, 98].drop 4) (getSubExprs [97, 63, 98]) =
        (true, []) ∧
      (∀ i < 4, (hasPrefix true ([97, 120, 99, 98, 97, 120, 98].drop i)
        (getSubExprs [97, 63, 98])).1 = false) ∧
      hasMidfix true [97, 120, 99, 98, 97, 120, 98] (getSubExprs [97, 63, 98]) =
        some (true, [97, 120, 98]) := by
  decide

/-- C18, the code at a failing input: the pattern `*ab*bz*` accepts the
candidate `aBab` in case-sensitive mode and rejects it in case-insensitive
mode. -/
theorem case_sensitive_accepts_insensitive_rejects :
    Match [42, 97, 98, 42, 98, 122, 42] [97, 66, 97, 98] true = some true ∧
      Match [42, 97, 98, 42, 98, 122, 42] [97, 66, 97, 98] false = some false := by
  decide

end glob
